import Mathlib

/-!
# Sideload node configuration (`pipeline/sideload.go`)

A shallow embedding of the `SideloadNode` configuration type of the pipeline
package, of its constructor `newSideloadNode` and of its three property
methods `Order`, `Field` and `Tag`, followed by the properties proved of them.

Go passes a `*SideloadNode` around and mutates the struct behind it; the two
maps of the struct are themselves references to map objects.  The embedding
keeps this visible: a `Heap` holds the node structs and the map objects by
address, a node pointer is an `Option Addr` (`none` is the nil pointer), and a
map-typed struct field is an `Option Addr` too (`none` is the nil map).  Each
method takes the heap and the receiver and gives back either a run-time panic
or the new heap together with the pointer the Go method returns.

The code that consumes the configuration (the expansion of the order, the
document cache and the per-key resolution) is not in this file of the
package; where a property needs it, it is modelled from the specification of
the node, in a section of its own.
-/

namespace Sideload

/-! ## Values -/

/-- The four scalar kinds a point field may hold. -/
inductive Kind
  | integer
  | floating
  | boolean
  | string
  deriving DecidableEq, Repr

/-- A scalar value.  A float is carried as the bit pattern of its `float64`,
so that no floating-point arithmetic is needed to compare or store it. -/
inductive Scalar
  | int (i : Int)
  | float (bits : Nat)
  | bool (b : Bool)
  | str (s : String)
  deriving DecidableEq, Repr

/-- The kind of a scalar. -/
def Scalar.kind : Scalar → Kind
  | .int _ => .integer
  | .float _ => .floating
  | .bool _ => .boolean
  | .str _ => .string

/-- A value of Go type `interface{}`, as `Field` receives it.  Besides the
scalars an `interface{}` may hold nothing at all (`nilValue`), a
`time.Duration`, or a list; the last three stand for every non-scalar value a
caller can pass. -/
inductive GoValue
  | scalar (s : Scalar)
  | nilValue
  | duration (ns : Int)
  | list (items : List Scalar)
  deriving DecidableEq, Repr

/-- Whether an `interface{}` value is an integer, a float, a boolean or a
string. -/
def GoValue.isScalar : GoValue → Bool
  | .scalar _ => true
  | _ => false

/-- The scalar inside an `interface{}` value, when it holds one. -/
def GoValue.toScalar : GoValue → Option Scalar
  | .scalar s => some s
  | _ => none

/-! ## Heap, node struct, panics -/

/-- An address of a heap object. -/
abbrev Addr := Nat

/-- A finite map from strings to values of type `V`; the contents of a Go
`map[string]V` object. -/
abbrev StrMap (V : Type) := Finmap (fun _ : String => V)

/-- The struct `SideloadNode`.  The embedded `chainnode` is declared elsewhere
in the package, so its type is the parameter `χ`.  `Fields` and `Tags` hold
the address of a map object, or `none` for the nil map; `OrderList` is a
slice, held as the list of its elements (a nil slice is the empty list). -/
structure SideloadNode (χ : Type) where
  chainnode : χ
  Source : String
  OrderList : List String
  Fields : Option Addr
  Tags : Option Addr

/-- The heap: node structs by address, the `map[string]interface{}` objects
and the `map[string]string` objects by address (the two map types cannot
alias each other), and the next free address of each.  A Go pointer that is
not nil always points to a struct; an address with no struct cannot arise and
is treated like the nil pointer. -/
structure Heap (χ : Type) where
  nodes : Addr → Option (SideloadNode χ)
  fieldMaps : Addr → StrMap GoValue
  tagMaps : Addr → StrMap String
  nextNode : Addr
  nextFieldMap : Addr
  nextTagMap : Addr

/-- The run-time panics the three methods can raise. -/
inductive GoPanic
  | nilPointerDereference
  | assignmentToEntryInNilMap
  deriving DecidableEq, Repr

/-- A heap with nothing allocated. -/
def Heap.empty {χ : Type} : Heap χ :=
  { nodes := fun _ => none
    fieldMaps := fun _ => ∅
    tagMaps := fun _ => ∅
    nextNode := 0
    nextFieldMap := 0
    nextTagMap := 0 }

/-- The struct behind a node pointer; a nil pointer has none. -/
def Heap.deref {χ : Type} (h : Heap χ) : Option Addr → Option (SideloadNode χ)
  | none => none
  | some a => h.nodes a

/-- The expression `n.Fields[f]` read with the comma-ok form: the value held
at `f`, or `none` when `f` is absent (reading a nil map finds nothing). -/
def Heap.fieldAt {χ : Type} (h : Heap χ) (n : Option Addr) (f : String) : Option GoValue :=
  match h.deref n with
  | none => none
  | some nd =>
    match nd.Fields with
    | none => none
    | some m => (h.fieldMaps m).lookup f

/-- The expression `n.Tags[t]` read with the comma-ok form. -/
def Heap.tagAt {χ : Type} (h : Heap χ) (n : Option Addr) (t : String) : Option String :=
  match h.deref n with
  | none => none
  | some nd =>
    match nd.Tags with
    | none => none
    | some m => (h.tagMaps m).lookup t

/-- The slice `n.OrderList`; a nil pointer has none. -/
def Heap.orderAt {χ : Type} (h : Heap χ) (n : Option Addr) : Option (List String) :=
  (h.deref n).map (fun nd => nd.OrderList)

/-- The string `n.Source`; a nil pointer has none. -/
def Heap.sourceAt {χ : Type} (h : Heap χ) (n : Option Addr) : Option String :=
  (h.deref n).map (fun nd => nd.Source)

/-- Both maps of the node behind `n` are initialised (neither is the nil
map). -/
def MapsInitialised {χ : Type} (h : Heap χ) (n : Option Addr) : Prop :=
  ∃ nd mf mt, h.deref n = some nd ∧ nd.Fields = some mf ∧ nd.Tags = some mt

/-! ## The constructor and the three property methods -/

/-- The constructor `newSideloadNode(wants)`.  It allocates the struct and two
fresh empty maps; `Source` and `OrderList` keep their zero values.  The
function `newBasicChainNode` is declared elsewhere in the package and is taken
as a parameter, and so is the type `ε` of edge types. -/
def newSideloadNode {χ ε : Type} (newBasicChainNode : String → ε → ε → χ) (wants : ε)
    (h : Heap χ) : Heap χ × Option Addr :=
  let nd : SideloadNode χ :=
    { chainnode := newBasicChainNode "sideload" wants wants
      Source := ""
      OrderList := []
      Fields := some h.nextFieldMap
      Tags := some h.nextTagMap }
  ({ nodes := Function.update h.nodes h.nextNode (some nd)
     fieldMaps := Function.update h.fieldMaps h.nextFieldMap ∅
     tagMaps := Function.update h.tagMaps h.nextTagMap ∅
     nextNode := h.nextNode + 1
     nextFieldMap := h.nextFieldMap + 1
     nextTagMap := h.nextTagMap + 1 }, some h.nextNode)

/-- The method `func (n *SideloadNode) Order(order ...string) *SideloadNode`:
`n.OrderList = order; return n`. -/
def Order {χ : Type} (h : Heap χ) (n : Option Addr) (order : List String) :
    Except GoPanic (Heap χ × Option Addr) :=
  match n with
  | none => .error .nilPointerDereference
  | some a =>
    match h.nodes a with
    | none => .error .nilPointerDereference
    | some nd =>
      .ok ({ h with nodes := Function.update h.nodes a (some { nd with OrderList := order }) }, n)

/-- The method `func (n *SideloadNode) Field(f string, v interface{}) *SideloadNode`:
`n.Fields[f] = v; return n`.  Writing to a nil map panics. -/
def Field {χ : Type} (h : Heap χ) (n : Option Addr) (f : String) (v : GoValue) :
    Except GoPanic (Heap χ × Option Addr) :=
  match n with
  | none => .error .nilPointerDereference
  | some a =>
    match h.nodes a with
    | none => .error .nilPointerDereference
    | some nd =>
      match nd.Fields with
      | none => .error .assignmentToEntryInNilMap
      | some m =>
        .ok ({ h with fieldMaps := Function.update h.fieldMaps m ((h.fieldMaps m).insert f v) }, n)

/-- The method `func (n *SideloadNode) Tag(t string, v string) *SideloadNode`:
`n.Tags[t] = v; return n`.  Writing to a nil map panics. -/
def Tag {χ : Type} (h : Heap χ) (n : Option Addr) (t : String) (v : String) :
    Except GoPanic (Heap χ × Option Addr) :=
  match n with
  | none => .error .nilPointerDereference
  | some a =>
    match h.nodes a with
    | none => .error .nilPointerDereference
    | some nd =>
      match nd.Tags with
      | none => .error .assignmentToEntryInNilMap
      | some m =>
        .ok ({ h with tagMaps := Function.update h.tagMaps m ((h.tagMaps m).insert t v) }, n)

/-! ## Sequences of property calls -/

/-- One call of a property method, with its arguments. -/
inductive Call
  | order (templates : List String)
  | field (f : String) (v : GoValue)
  | tag (t : String) (v : String)
  deriving DecidableEq, Repr

/-- Perform one call on the receiver `n`. -/
def Call.run {χ : Type} (h : Heap χ) (n : Option Addr) : Call → Except GoPanic (Heap χ × Option Addr)
  | .order o => Order h n o
  | .field f v => Field h n f v
  | .tag t v => Tag h n t v

/-- Perform a chain of calls `n.c₁(…).c₂(…)…`: each call's receiver is the
pointer the previous call returned, and a panic ends the chain. -/
def runCalls {χ : Type} (h : Heap χ) (n : Option Addr) : List Call → Except GoPanic (Heap χ × Option Addr)
  | [] => .ok (h, n)
  | c :: cs =>
    match c.run h n with
    | .error e => .error e
    | .ok (h1, n1) => runCalls h1 n1 cs

/-- The argument list of the last `Order` call of a chain, if it has one. -/
def lastOrder : List Call → Option (List String)
  | [] => none
  | c :: cs =>
    match lastOrder cs with
    | some o => some o
    | none =>
      match c with
      | .order o => some o
      | _ => none

/-- Whether every `Field` call of a chain passes a scalar default. -/
def allFieldDefaultsScalar : List Call → Bool
  | [] => true
  | .field _ v :: cs => v.isScalar && allFieldDefaultsScalar cs
  | _ :: cs => allFieldDefaultsScalar cs

/-- A chain-node constructor for examples: the chain node carries nothing. -/
def unitChain : String → Unit → Unit → Unit :=
  fun _ _ _ => ()

/-- The heap after `newSideloadNode` has run on the empty heap. -/
def freshHeap : Heap Unit :=
  (newSideloadNode unitChain () Heap.empty).1

/-- The pointer `newSideloadNode` returns on the empty heap. -/
def freshNode : Option Addr :=
  (newSideloadNode unitChain () Heap.empty).2

/-- The struct `newSideloadNode` builds on the empty heap. -/
def freshStruct : SideloadNode Unit :=
  { chainnode := (), Source := "", OrderList := [], Fields := some 0, Tags := some 0 }

/-! ## The resolution engine

The code that enriches a point is not part of `pipeline/sideload.go`.  What
this section defines follows the specification of the node (its sections 3, 4
and 7): the source, the document cache, the path expander and
the per-key resolver, and the construction of a configuration from a node. -/

/-- Modelled from the spec: the Point of section 3, whose code is not in
`pipeline/sideload.go`: a measurement name, a tag map, a field map of scalars
and a timestamp. -/
structure Point where
  name : String
  tags : StrMap String
  fields : StrMap Scalar
  time : Int

/-- Modelled from the spec: the Document of section 3, "a flat mapping from
key (string) to scalar value"; non-scalar leaves of a file are ignored for
lookup and so are not part of it. -/
abbrev Document := StrMap Scalar

/-- Modelled from the spec: the outcome of the Source contract of section
4.1, `load(relative_path) → Document | NotFound | LoadError`, the error
keeping its kind. -/
inductive LoadResult
  | document (d : Document)
  | notFound
  | loadError (kind : String)
  deriving DecidableEq

/-- Modelled from the spec: the Source of section 4.1, a resolver from a
relative path to a load outcome.  The file system behind it is outside the
model, so a source is any such function. -/
abbrev Source := String → LoadResult

/-- Modelled from the spec: the cached outcome of section 3,
`Document | NotFound`, NotFound being "a first-class cached outcome". -/
inductive CacheEntry
  | document (d : Document)
  | notFound
  deriving DecidableEq

/-- Modelled from the spec: the Document Cache of section 4.2, a memo of
parsed documents by canonical relative path. -/
structure DocumentCache where
  entries : StrMap CacheEntry

/-- Modelled from the spec: the errors recorded on a point's processing
context (section 7): a LoadError for a path, with its kind, and a
TypeMismatchError for a key at a path. -/
inductive ResolveError
  | load (path : String) (kind : String)
  | typeMismatch (key : String) (path : String)
  deriving DecidableEq, Repr

/-- Modelled from the spec: `get` of section 4.2.  A cached outcome is
returned as it is.  On a miss the source is invoked: a Document or NotFound is
memoized and returned; a LoadError is not cached, the path counts as NotFound
for this point and the error is handed back to be recorded. -/
def DocumentCache.get (src : Source) (c : DocumentCache) (p : String) :
    CacheEntry × Option ResolveError × DocumentCache :=
  match c.entries.lookup p with
  | some e => (e, none, c)
  | none =>
    match src p with
    | .document d => (.document d, none, { entries := c.entries.insert p (.document d) })
    | .notFound => (.notFound, none, { entries := c.entries.insert p .notFound })
    | .loadError k => (.notFound, some (.load p k), c)

/-- Modelled from the spec: `reload` of section 4.2 drops all entries. -/
def DocumentCache.reload (_c : DocumentCache) : DocumentCache :=
  { entries := ∅ }

/-- Modelled from the spec: one piece of a parsed path template (section 3,
PathTemplate): a literal segment or a variable reference `{tagname}`. -/
inductive Segment
  | lit (text : String)
  | ref (tagName : String)
  deriving DecidableEq, Repr

/-- Modelled from the spec: the PathTemplate of section 3, "a sequence of
literal segments and variable references". -/
abbrev PathTemplate := List Segment

/-- Modelled from the spec: the characters of a variable name (section 4.3):
"letters, digits, `_`, `-`". -/
def isNameChar (c : Char) : Bool :=
  c.isAlphanum || c == '_' || c == '-'

/-- Modelled from the spec: part of template parsing (section 3), which is
not in `pipeline/sideload.go`: close the literal segment read so far, if it is
not empty. -/
def flushLiteral (text : List Char) (rest : PathTemplate) : PathTemplate :=
  if text.isEmpty then rest else Segment.lit (String.mk text) :: rest

/-- Modelled from the spec: template parsing (sections 3 and 4.3) over the
characters of a template.  `text` is the literal read so far and `name` is
`some` of the variable name read so far while inside braces.  `none` is the
config-time error: an unclosed or nested opening brace, a closing brace
outside a variable, an empty name, a character that no name may hold. -/
def parseChars : List Char → List Char → Option (List Char) → Option PathTemplate
  | [], text, none => some (flushLiteral text [])
  | [], _, some _ => none
  | c :: cs, text, none =>
    if c = '\x7b' then (parseChars cs [] (some [])).map (flushLiteral text)
    else if c = '\x7d' then none
    else parseChars cs (text ++ [c]) none
  | c :: cs, text, some name =>
    if c = '\x7d' then
      if name.isEmpty then none
      else (parseChars cs [] none).map (fun t => Segment.ref (String.mk name) :: t)
    else if isNameChar c then parseChars cs text (some (name ++ [c]))
    else none

/-- Modelled from the spec: parse one entry of `order` into a template. -/
def parseTemplate (s : String) : Option PathTemplate :=
  parseChars s.toList [] none

/-- Modelled from the spec: parse every entry of `order`, in order; one
malformed entry fails the whole list (a config-time error). -/
def parseOrder : List String → Option (List PathTemplate)
  | [] => some []
  | s :: rest =>
    match parseTemplate s with
    | none => none
    | some t =>
      match parseOrder rest with
      | none => none
      | some ts => some (t :: ts)

/-- Modelled from the spec: textual substitution of section 4.3.  A variable
that names a tag absent from the point gives `none`: the template is dropped. -/
def substitute (tags : StrMap String) : PathTemplate → Option String
  | [] => some ""
  | .lit s :: rest => (substitute tags rest).map (fun r => s ++ r)
  | .ref n :: rest =>
    match tags.lookup n with
    | none => none
    | some v => (substitute tags rest).map (fun r => v ++ r)

/-- Modelled from the spec: part of canonicalization (section 4.3), which is
not in `pipeline/sideload.go`: split the characters of a path at every `/`. -/
def splitSlash : List Char → List Char → List (List Char)
  | [], cur => [cur]
  | c :: cs, cur => if c = '/' then cur :: splitSlash cs [] else splitSlash cs (cur ++ [c])

/-- Modelled from the spec: canonicalization of section 4.3, "collapse `./`,
reject `..`, reject absolute".  `none` is a rejected path. -/
def canonicalize (p : String) : Option String :=
  let parts := splitSlash p.toList []
  if p.toList.head? = some '/' then none
  else if parts.any (fun s => s == ['.', '.']) then none
  else some (String.intercalate "/" ((parts.filter (fun s => s != ['.'])).map String.mk))

/-- Modelled from the spec: the concrete path of one template for a point's
tags: substitute, then canonicalize; `none` when the template is dropped. -/
def expandOne (tags : StrMap String) (t : PathTemplate) : Option String :=
  (substitute tags t).bind canonicalize

/-- Modelled from the spec: `expand` of section 4.3.  Each template is
resolved independently, in declared order; a dropped template contributes no
path; duplicates are kept.  The report of a rejected path is telemetry and is
not part of the result. -/
def expand (templates : List PathTemplate) (tags : StrMap String) : List String :=
  templates.filterMap (expandOne tags)

/-- Modelled from the spec: the path an entry of `order` contributes for a
point's tags, if any: parse, substitute, canonicalize. -/
def pathOfEntry (tags : StrMap String) (s : String) : Option String :=
  (parseTemplate s).bind (expandOne tags)

/-- Modelled from the spec: the SideloadConfig of section 3. -/
structure SideloadConfig where
  source_uri : String
  order : List PathTemplate
  fields : StrMap GoValue
  tags : StrMap String

/-- Modelled from the spec: the ConfigError class of section 7, "malformed
template, non-scalar default, unsupported source scheme". -/
inductive ConfigError
  | malformedTemplate
  | nonScalarDefault
  | unsupportedSourceScheme
  deriving DecidableEq, Repr

/-- Modelled from the spec: part of the configuration check for non-scalar
field defaults (section 7), which is not in `pipeline/sideload.go`: whether a
map holds a scalar at `f` (or nothing). -/
def scalarAt (m : StrMap GoValue) (f : String) : Bool :=
  match m.lookup f with
  | none => true
  | some v => v.isScalar

/-- Modelled from the spec: the configuration check for a non-scalar default
(section 7), which is not in `pipeline/sideload.go`: whether every default of
a map is a scalar. -/
def allScalar (m : StrMap GoValue) : Bool :=
  decide (∀ f ∈ m.keys, scalarAt m f = true)

/-- The contents of a node's `Fields` map; a nil map holds nothing. -/
def Heap.fieldsOf {χ : Type} (h : Heap χ) (nd : SideloadNode χ) : StrMap GoValue :=
  match nd.Fields with
  | none => ∅
  | some m => h.fieldMaps m

/-- The contents of a node's `Tags` map; a nil map holds nothing. -/
def Heap.tagsOf {χ : Type} (h : Heap χ) (nd : SideloadNode χ) : StrMap String :=
  match nd.Tags with
  | none => ∅
  | some m => h.tagMaps m

/-- Modelled from the spec: construction of the configuration from a node
(sections 3, 6 and 7).  The source must have scheme `file://`, every entry of
the order must parse and every field default must be a scalar; otherwise the
node refuses to start with a ConfigError. -/
def SideloadConfig.ofNode {χ : Type} (h : Heap χ) (nd : SideloadNode χ) :
    Except ConfigError SideloadConfig :=
  if "file://".toList.isPrefixOf nd.Source.toList then
    match parseOrder nd.OrderList with
    | none => .error .malformedTemplate
    | some ts =>
      if allScalar (h.fieldsOf nd) then
        .ok { source_uri := nd.Source, order := ts, fields := h.fieldsOf nd, tags := h.tagsOf nd }
      else .error .nonScalarDefault
  else .error .unsupportedSourceScheme

/-- Modelled from the spec: the default of a requested field, a scalar. -/
def SideloadConfig.fieldDefault (cfg : SideloadConfig) (f : String) : Option Scalar :=
  (cfg.fields.lookup f).bind GoValue.toScalar

/-- Modelled from the spec: the recording of a LoadError (section 4.4, "one
error record per (point, path)"), which is not in `pipeline/sideload.go`. -/
def recordLoad (errs : List ResolveError) : Option ResolveError → List ResolveError
  | none => errs
  | some e => if e ∈ errs then errs else errs ++ [e]

/-- Modelled from the spec: step 2 of the algorithm of section 4.4 for one
requested key.  The paths are walked in order.  A path whose document is not
found, or lacks the key, is passed over.  A value of an acceptable kind is
adopted and the walk stops.  A value of another kind records a type error and
the walk continues.  The result is the adopted value, if any, the errors
recorded and the cache as the walk leaves it. -/
def search (src : Source) (accept : Scalar → Bool) (key : String) :
    List String → DocumentCache → List ResolveError →
      Option Scalar × List ResolveError × DocumentCache
  | [], c, errs => (none, errs, c)
  | p :: ps, c, errs =>
    match DocumentCache.get src c p with
    | (.notFound, e, c1) => search src accept key ps c1 (recordLoad errs e)
    | (.document d, e, c1) =>
      match d.lookup key with
      | none => search src accept key ps c1 (recordLoad errs e)
      | some v =>
        if accept v then (some v, recordLoad errs e, c1)
        else search src accept key ps c1 (recordLoad errs e ++ [.typeMismatch key p])

/-- Modelled from the spec: the outcome of resolving one key: the value
adopted, the errors recorded and the cache afterwards. -/
structure Resolved (α : Type) where
  value : α
  errors : List ResolveError
  cache : DocumentCache

/-- Modelled from the spec: whether a document value is acceptable for a
field: its kind must equal the kind of the default. -/
def acceptField (dflt : Scalar) (v : Scalar) : Bool :=
  v.kind == dflt.kind

/-- Modelled from the spec: whether a document value is acceptable for a tag:
it must be string-kinded (the strict choice the spec recommends). -/
def acceptTag (v : Scalar) : Bool :=
  v.kind == Kind.string

/-- Modelled from the spec: the algorithm of section 4.4 for a requested
field: expand the order for the point's tags, walk the paths, and adopt the
configured default if no path yields a value.  `none` when `f` is not a
configured field. -/
def resolveField (src : Source) (c : DocumentCache) (cfg : SideloadConfig) (pt : Point)
    (f : String) : Option (Resolved Scalar) :=
  match cfg.fieldDefault f with
  | none => none
  | some dflt =>
    match search src (acceptField dflt) f (expand cfg.order pt.tags) c [] with
    | (hit, errs, c1) => some { value := hit.getD dflt, errors := errs, cache := c1 }

/-- Modelled from the spec: the algorithm of section 4.4 for a requested tag.
`none` when `t` is not a configured tag. -/
def resolveTag (src : Source) (c : DocumentCache) (cfg : SideloadConfig) (pt : Point)
    (t : String) : Option (Resolved String) :=
  match cfg.tags.lookup t with
  | none => none
  | some dflt =>
    match search src acceptTag t (expand cfg.order pt.tags) c [] with
    | (some (.str s), errs, c1) => some { value := s, errors := errs, cache := c1 }
    | (_, errs, c1) => some { value := dflt, errors := errs, cache := c1 }

/-- The document the cache yields for a path, in a given cache state. -/
def docAt (src : Source) (c : DocumentCache) (p : String) : CacheEntry :=
  (DocumentCache.get src c p).1

/-- Two cache states yield the same document for every path. -/
def SameView (src : Source) (c c1 : DocumentCache) : Prop :=
  ∀ q, docAt src c1 q = docAt src c q

/-- The document at path `p` contains `key` with the value `v`, and `v` is of
an acceptable kind. -/
def Hit (src : Source) (c : DocumentCache) (accept : Scalar → Bool) (key p : String)
    (v : Scalar) : Prop :=
  ∃ d, docAt src c p = .document d ∧ d.lookup key = some v ∧ accept v = true

/-- The document at path `p` yields no acceptable value for `key`: it is not
found, or lacks the key, or holds a value of another kind. -/
def NoHit (src : Source) (c : DocumentCache) (accept : Scalar → Bool) (key p : String) : Prop :=
  ∀ v, ¬ Hit src c accept key p v

/-- The document at path `p` contains `key` with a value of a kind that is not
acceptable. -/
def Mismatch (src : Source) (c : DocumentCache) (accept : Scalar → Bool) (key p : String) : Prop :=
  ∃ d v, docAt src c p = .document d ∧ d.lookup key = some v ∧ accept v = false

/-! ## A scenario

The hierarchy of the node's documentation: host file, host group file, default
file, with the field `cpu_threshold` enrolled with an integer default. -/

/-- The struct of the scenario's node before it is configured: the source is
set, the maps are initialised, nothing is declared. -/
def scenarioStruct0 : SideloadNode Unit :=
  { chainnode := ()
    Source := "file:///etc/sideload"
    OrderList := []
    Fields := some 0
    Tags := some 0 }

/-- The struct of the scenario's node once the order is declared. -/
def scenarioStruct : SideloadNode Unit :=
  { scenarioStruct0 with
    OrderList := ["host/{host}.yml", "hostgroup/{hostgroup}.yml", "default.yml"] }

/-- The heap of the scenario before the node is configured. -/
def scenarioHeap0 : Heap Unit :=
  { nodes := Function.update (fun _ => none) 0 (some scenarioStruct0)
    fieldMaps := fun _ => ∅
    tagMaps := fun _ => ∅
    nextNode := 1
    nextFieldMap := 1
    nextTagMap := 1 }

/-- The heap of the scenario after `Field("cpu_threshold", 80)`. -/
def scenarioHeap1 : Heap Unit :=
  { scenarioHeap0 with
    fieldMaps := Function.update scenarioHeap0.fieldMaps 0
      ((scenarioHeap0.fieldMaps 0).insert "cpu_threshold" (.scalar (.int 80))) }

/-- The heap of the scenario after the `Order` call that follows. -/
def scenarioHeap : Heap Unit :=
  { scenarioHeap1 with
    nodes := Function.update scenarioHeap1.nodes 0 (some scenarioStruct) }

/-- The configuration the scenario's node builds. -/
def scenarioConfig : SideloadConfig :=
  { source_uri := "file:///etc/sideload"
    order := [[.lit "host/", .ref "host", .lit ".yml"],
      [.lit "hostgroup/", .ref "hostgroup", .lit ".yml"], [.lit "default.yml"]]
    fields := (∅ : StrMap GoValue).insert "cpu_threshold" (.scalar (.int 80))
    tags := ∅ }

/-- A document that holds `cpu_threshold` only. -/
def thresholdDoc (v : Scalar) : Document :=
  (∅ : StrMap Scalar).insert "cpu_threshold" v

/-- A source with all three files of the hierarchy: host 90, host group 70
and 50 as the default. -/
def hierarchySource : Source := fun p =>
  if p = "host/h1.yml" then .document (thresholdDoc (.int 90))
  else if p = "hostgroup/web.yml" then .document (thresholdDoc (.int 70))
  else if p = "default.yml" then .document (thresholdDoc (.int 50))
  else .notFound

/-- A source whose host file holds a string where an integer is required, and
that has no other file. -/
def mismatchSource : Source := fun p =>
  if p = "host/h1.yml" then .document (thresholdDoc (.str "high"))
  else .notFound

/-- A point with the tags `host=h1` and `hostgroup=web`. -/
def scenarioPoint : Point :=
  { name := "cpu"
    tags := ((∅ : StrMap String).insert "host" "h1").insert "hostgroup" "web"
    fields := ∅
    time := 0 }

/-- A point with the tag `host=h1` only. -/
def hostOnlyPoint : Point :=
  { name := "cpu"
    tags := (∅ : StrMap String).insert "host" "h1"
    fields := ∅
    time := 0 }

/-- The empty cache. -/
def emptyCache : DocumentCache :=
  { entries := ∅ }

/-! ## Properties of the property methods -/

/-- On a valid receiver `Order` returns the receiver and rewrites only the
`OrderList` of its struct. -/
theorem Order_eq {χ : Type} (h : Heap χ) (n : Option Addr) (nd : SideloadNode χ)
    (order : List String) (hn : h.deref n = some nd) :
    ∃ a, n = some a ∧ Order h n order =
      .ok ({ h with nodes := Function.update h.nodes a (some { nd with OrderList := order }) }, n) := by
  cases n with
  | none => simp [Heap.deref] at hn
  | some a =>
    refine ⟨a, rfl, ?_⟩
    simp only [Heap.deref] at hn
    simp [Order, hn]

/-- On a valid receiver with an initialised `Fields` map `Field` returns the
receiver and rewrites only the map object behind `Fields`. -/
theorem Field_eq {χ : Type} (h : Heap χ) (n : Option Addr) (nd : SideloadNode χ) (m : Addr)
    (f : String) (v : GoValue) (hn : h.deref n = some nd) (hm : nd.Fields = some m) :
    Field h n f v =
      .ok ({ h with fieldMaps := Function.update h.fieldMaps m ((h.fieldMaps m).insert f v) }, n) := by
  cases n with
  | none => simp [Heap.deref] at hn
  | some a =>
    simp only [Heap.deref] at hn
    simp [Field, hn, hm]

/-- On a valid receiver with an initialised `Tags` map `Tag` returns the
receiver and rewrites only the map object behind `Tags`. -/
theorem Tag_eq {χ : Type} (h : Heap χ) (n : Option Addr) (nd : SideloadNode χ) (m : Addr)
    (t : String) (v : String) (hn : h.deref n = some nd) (hm : nd.Tags = some m) :
    Tag h n t v =
      .ok ({ h with tagMaps := Function.update h.tagMaps m ((h.tagMaps m).insert t v) }, n) := by
  cases n with
  | none => simp [Heap.deref] at hn
  | some a =>
    simp only [Heap.deref] at hn
    simp [Tag, hn, hm]

/-- C1: on a node whose `Fields` map is initialised, `Field(f, v)` returns
normally; afterwards the `Fields` map holds `v` at `f`, every other field name
maps to what it mapped to before (the same value, or absent), the map is still
the same initialised map object, and the pointer returned is the receiver. -/
theorem Field_sets_f_only {χ : Type} (h : Heap χ) (n : Option Addr) (nd : SideloadNode χ)
    (m : Addr) (f : String) (v : GoValue)
    (hn : h.deref n = some nd) (hm : nd.Fields = some m) :
    ∃ h1, Field h n f v = .ok (h1, n) ∧
      h1.fieldAt n f = some v ∧
      (∀ g, g ≠ f → h1.fieldAt n g = h.fieldAt n g) ∧
      h1.deref n = some nd := by
  refine ⟨_, Field_eq h n nd m f v hn hm, ?_, ?_, ?_⟩
  · cases n with
    | none => simp [Heap.deref] at hn
    | some a =>
      simp only [Heap.deref] at hn
      simp [Heap.fieldAt, Heap.deref, hn, hm, Finmap.lookup_insert]
  · intro g hg
    cases n with
    | none => simp [Heap.deref] at hn
    | some a =>
      simp only [Heap.deref] at hn
      simp [Heap.fieldAt, Heap.deref, hn, hm, Finmap.lookup_insert_of_ne _ hg]
  · cases n with
    | none => simp [Heap.deref] at hn
    | some a => simpa [Heap.deref] using hn

/-- C2: on a node whose `Tags` map is initialised, `Tag(t, v)` returns
normally; afterwards the `Tags` map holds `v` at `t`, every other tag name
maps to what it mapped to before (the same value, or absent), the map is still
the same initialised map object, and the pointer returned is the receiver. -/
theorem Tag_sets_t_only {χ : Type} (h : Heap χ) (n : Option Addr) (nd : SideloadNode χ)
    (m : Addr) (t : String) (v : String)
    (hn : h.deref n = some nd) (hm : nd.Tags = some m) :
    ∃ h1, Tag h n t v = .ok (h1, n) ∧
      h1.tagAt n t = some v ∧
      (∀ u, u ≠ t → h1.tagAt n u = h.tagAt n u) ∧
      h1.deref n = some nd := by
  refine ⟨_, Tag_eq h n nd m t v hn hm, ?_, ?_, ?_⟩
  · cases n with
    | none => simp [Heap.deref] at hn
    | some a =>
      simp only [Heap.deref] at hn
      simp [Heap.tagAt, Heap.deref, hn, hm, Finmap.lookup_insert]
  · intro u hu
    cases n with
    | none => simp [Heap.deref] at hn
    | some a =>
      simp only [Heap.deref] at hn
      simp [Heap.tagAt, Heap.deref, hn, hm, Finmap.lookup_insert_of_ne _ hu]
  · cases n with
    | none => simp [Heap.deref] at hn
    | some a => simpa [Heap.deref] using hn

/-- Witness of C1 on the node `newSideloadNode` builds. -/
theorem Field_sets_f_only_witness :
    freshHeap.deref freshNode = some freshStruct ∧ freshStruct.Fields = some 0 ∧
    ∃ h1, Field freshHeap freshNode "cpu_threshold" (.scalar (.int 80)) = .ok (h1, freshNode) ∧
      h1.fieldAt freshNode "cpu_threshold" = some (.scalar (.int 80)) ∧
      (∀ g, g ≠ "cpu_threshold" → h1.fieldAt freshNode g = freshHeap.fieldAt freshNode g) ∧
      h1.deref freshNode = some freshStruct :=
  ⟨rfl, rfl, Field_sets_f_only freshHeap freshNode freshStruct 0 "cpu_threshold"
    (.scalar (.int 80)) rfl rfl⟩

/-- Witness of C2 on the node `newSideloadNode` builds. -/
theorem Tag_sets_t_only_witness :
    freshHeap.deref freshNode = some freshStruct ∧ freshStruct.Tags = some 0 ∧
    ∃ h1, Tag freshHeap freshNode "region" "unknown" = .ok (h1, freshNode) ∧
      h1.tagAt freshNode "region" = some "unknown" ∧
      (∀ u, u ≠ "region" → h1.tagAt freshNode u = freshHeap.tagAt freshNode u) ∧
      h1.deref freshNode = some freshStruct :=
  ⟨rfl, rfl, Tag_sets_t_only freshHeap freshNode freshStruct 0 "region" "unknown" rfl rfl⟩

/-- A call that returns normally returns its receiver and changes the
`Fields` map only as the call says. -/
theorem Call.run_fieldAt {χ : Type} (h h1 : Heap χ) (n n1 : Option Addr) (c : Call)
    (hrun : c.run h n = .ok (h1, n1)) :
    n1 = n ∧ ∀ g, h1.fieldAt n g = match c with
      | .field f v => if g = f then some v else h.fieldAt n g
      | _ => h.fieldAt n g := by
  cases n with
  | none => cases c <;> simp [Call.run, Order, Field, Tag] at hrun
  | some a =>
    cases hnd : h.nodes a with
    | none => cases c <;> simp [Call.run, Order, Field, Tag, hnd] at hrun
    | some nd =>
      have hi : h.deref (some a) = some nd := by simpa [Heap.deref] using hnd
      cases c with
      | order o =>
        obtain ⟨b, hb, he⟩ := Order_eq h (some a) nd o hi
        cases hb
        simp only [Call.run] at hrun
        rw [he] at hrun
        cases hrun
        exact ⟨rfl, fun g => by simp [Heap.fieldAt, Heap.deref, hnd]⟩
      | field f v =>
        cases hm : nd.Fields with
        | none => simp [Call.run, Field, hnd, hm] at hrun
        | some m =>
          simp only [Call.run] at hrun
          rw [Field_eq h (some a) nd m f v hi hm] at hrun
          cases hrun
          refine ⟨rfl, fun g => ?_⟩
          by_cases hg : g = f
          · subst hg
            simp [Heap.fieldAt, Heap.deref, hnd, hm, Finmap.lookup_insert]
          · simp [Heap.fieldAt, Heap.deref, hnd, hm, hg, Finmap.lookup_insert_of_ne _ hg]
      | tag t v =>
        cases hm : nd.Tags with
        | none => simp [Call.run, Tag, hnd, hm] at hrun
        | some m =>
          simp only [Call.run] at hrun
          rw [Tag_eq h (some a) nd m t v hi hm] at hrun
          cases hrun
          exact ⟨rfl, fun g => by simp [Heap.fieldAt, Heap.deref, hnd]⟩

/-- A chain that returns normally and has no `Field` call for `f` leaves the
`Fields` map at `f` as it was. -/
theorem runCalls_fieldAt (f : String) {χ : Type} (n : Option Addr) :
    ∀ (cs : List Call) (h h1 : Heap χ) (n1 : Option Addr),
      runCalls h n cs = .ok (h1, n1) → (∀ v, Call.field f v ∉ cs) →
      n1 = n ∧ h1.fieldAt n f = h.fieldAt n f := by
  intro cs
  induction cs with
  | nil =>
    intro h h1 n1 hrun _
    simp [runCalls] at hrun
    exact ⟨hrun.2.symm, by rw [hrun.1]⟩
  | cons c cs ih =>
    intro h h1 n1 hrun hno
    cases hc : c.run h n with
    | error e => simp [runCalls, hc] at hrun
    | ok r =>
      obtain ⟨h2, n2⟩ := r
      obtain ⟨hn2, hfld⟩ := Call.run_fieldAt h h2 n n2 c hc
      subst hn2
      simp only [runCalls, hc] at hrun
      obtain ⟨hn1, hkeep⟩ := ih h2 h1 n1 hrun (fun v hv => hno v (List.mem_cons_of_mem _ hv))
      refine ⟨hn1, ?_⟩
      rw [hkeep, hfld f]
      cases c with
      | order o => rfl
      | tag t w => rfl
      | field g w =>
        have hne : f ≠ g := fun he => hno w (by rw [he]; exact List.mem_cons_self _ _)
        simp [hne]

/-- One call on a node with both maps initialised returns the receiver, keeps
both maps initialised, and changes `OrderList` and the `Fields` map only as
the call says. -/
theorem Call.run_spec {χ : Type} (h : Heap χ) (n : Option Addr) (c : Call)
    (hi : MapsInitialised h n) :
    ∃ h1, c.run h n = .ok (h1, n) ∧ MapsInitialised h1 n ∧
      h1.orderAt n = (match c with
        | .order o => some o
        | _ => h.orderAt n) ∧
      (∀ g, h1.fieldAt n g = match c with
        | .field f v => if g = f then some v else h.fieldAt n g
        | _ => h.fieldAt n g) := by
  obtain ⟨nd, mf, mt, hn, hf, ht⟩ := hi
  cases n with
  | none => simp [Heap.deref] at hn
  | some a =>
    have hn1 : h.nodes a = some nd := by simpa [Heap.deref] using hn
    cases c with
    | order o =>
      obtain ⟨b, hb, he⟩ := Order_eq h (some a) nd o hn
      cases hb
      refine ⟨_, he, ⟨{ nd with OrderList := o }, mf, mt, ?_, hf, ht⟩, ?_, ?_⟩
      · simp [Heap.deref]
      · simp [Heap.orderAt, Heap.deref]
      · intro g
        simp [Heap.fieldAt, Heap.deref, hn1]
    | field f v =>
      refine ⟨_, Field_eq h (some a) nd mf f v hn hf, ⟨nd, mf, mt, ?_, hf, ht⟩, ?_, ?_⟩
      · simpa [Heap.deref] using hn1
      · simp [Heap.orderAt, Heap.deref]
      · intro g
        by_cases hg : g = f
        · subst hg
          simp [Heap.fieldAt, Heap.deref, hn1, hf, Finmap.lookup_insert]
        · simp [Heap.fieldAt, Heap.deref, hn1, hf, hg, Finmap.lookup_insert_of_ne _ hg]
    | tag t v =>
      refine ⟨_, Tag_eq h (some a) nd mt t v hn ht, ⟨nd, mf, mt, ?_, hf, ht⟩, ?_, ?_⟩
      · simpa [Heap.deref] using hn1
      · simp [Heap.orderAt, Heap.deref]
      · intro g
        simp [Heap.fieldAt, Heap.deref, hn1]

/-- A chain of calls on a node with both maps initialised returns the
receiver, keeps both maps initialised, leaves in `OrderList` the arguments of
its last `Order` call (or what was there, if it has none), and leaves in the
`Fields` map only values that were there or that a `Field` call passed. -/
theorem runCalls_spec {χ : Type} (n : Option Addr) (cs : List Call) :
    ∀ h : Heap χ, MapsInitialised h n →
    ∃ h1, runCalls h n cs = .ok (h1, n) ∧ MapsInitialised h1 n ∧
      h1.orderAt n = (match lastOrder cs with
        | some o => some o
        | none => h.orderAt n) ∧
      (∀ g v, h1.fieldAt n g = some v → h.fieldAt n g = some v ∨ Call.field g v ∈ cs) := by
  induction cs with
  | nil =>
    intro h hi
    exact ⟨h, rfl, hi, rfl, fun g v hv => Or.inl hv⟩
  | cons c cs ih =>
    intro h hi
    obtain ⟨h1, hrun, hi1, hord1, hfld1⟩ := Call.run_spec h n c hi
    obtain ⟨h2, hrun2, hi2, hord2, hfld2⟩ := ih h1 hi1
    refine ⟨h2, ?_, hi2, ?_, ?_⟩
    · simp [runCalls, hrun, hrun2]
    · rw [hord2, hord1]
      cases hl : lastOrder cs with
      | some o => simp [lastOrder, hl]
      | none => cases c <;> simp [lastOrder, hl]
    · intro g v hv
      rcases hfld2 g v hv with hy | hy
      · rw [hfld1 g] at hy
        cases c with
        | order o => exact Or.inl hy
        | tag t w => exact Or.inl hy
        | field f w =>
          by_cases hg : g = f
          · subst hg
            simp at hy
            subst hy
            exact Or.inr (List.mem_cons_self _ _)
          · simp [hg] at hy
            exact Or.inl hy
      · exact Or.inr (List.mem_cons_of_mem _ hy)

/-- The node `newSideloadNode` returns has both maps initialised and empty,
an empty `OrderList` and an empty `Source`. -/
theorem newSideloadNode_spec {χ ε : Type} (mk : String → ε → ε → χ) (wants : ε) (h : Heap χ) :
    ∃ nd mf mt, (newSideloadNode mk wants h).1.deref (newSideloadNode mk wants h).2 = some nd ∧
      nd.Fields = some mf ∧ (newSideloadNode mk wants h).1.fieldMaps mf = ∅ ∧
      nd.Tags = some mt ∧ (newSideloadNode mk wants h).1.tagMaps mt = ∅ ∧
      nd.OrderList = [] ∧ nd.Source = "" := by
  refine ⟨{ chainnode := mk "sideload" wants wants, Source := "", OrderList := [],
            Fields := some h.nextFieldMap, Tags := some h.nextTagMap },
    h.nextFieldMap, h.nextTagMap, ?_, rfl, ?_, rfl, ?_, rfl, rfl⟩
  · simp [newSideloadNode, Heap.deref]
  · simp [newSideloadNode]
  · simp [newSideloadNode]

/-- No field is enrolled in the node `newSideloadNode` returns. -/
theorem newSideloadNode_fieldAt {χ ε : Type} (mk : String → ε → ε → χ) (wants : ε) (h : Heap χ)
    (g : String) :
    (newSideloadNode mk wants h).1.fieldAt (newSideloadNode mk wants h).2 g = none := by
  simp [newSideloadNode, Heap.fieldAt, Heap.deref]

/-- The node `newSideloadNode` returns has both maps initialised. -/
theorem newSideloadNode_initialised {χ ε : Type} (mk : String → ε → ε → χ) (wants : ε)
    (h : Heap χ) :
    MapsInitialised (newSideloadNode mk wants h).1 (newSideloadNode mk wants h).2 := by
  obtain ⟨nd, mf, mt, hn, hf, _, ht, _⟩ := newSideloadNode_spec mk wants h
  exact ⟨nd, mf, mt, hn, hf, ht⟩

/-- A scalar default check on a chain covers each of its `Field` calls. -/
theorem isScalar_of_mem : ∀ (cs : List Call) (f : String) (v : GoValue),
    allFieldDefaultsScalar cs = true → Call.field f v ∈ cs → v.isScalar = true := by
  intro cs
  induction cs with
  | nil => intro f v _ hm; cases hm
  | cons c cs ih =>
    intro f v hall hm
    cases c with
    | order o =>
      simp only [allFieldDefaultsScalar] at hall
      rcases List.mem_cons.mp hm with hy | hy
      · cases hy
      · exact ih f v hall hy
    | tag t w =>
      simp only [allFieldDefaultsScalar] at hall
      rcases List.mem_cons.mp hm with hy | hy
      · cases hy
      · exact ih f v hall hy
    | field g w =>
      simp only [allFieldDefaultsScalar, Bool.and_eq_true] at hall
      rcases List.mem_cons.mp hm with hy | hy
      · cases hy
        exact hall.1
      · exact ih f v hall.2 hy

/-- C3: on every node, `Order(order...)` returns the receiver and leaves
`OrderList` equal to the sequence passed: the same length and the same element
at every position; and a second `Order` call replaces the list the first one
set, so after `Order(o1)` and then `Order(o2)` the list is `o2`. -/
theorem Order_sets_and_replaces {χ : Type} (h : Heap χ) (n : Option Addr) (nd : SideloadNode χ)
    (o1 o2 : List String) (hn : h.deref n = some nd) :
    (∃ h1 l, Order h n o2 = .ok (h1, n) ∧ h1.orderAt n = some l ∧ l = o2 ∧
      l.length = o2.length ∧ ∀ i : Nat, l[i]? = o2[i]?) ∧
    (∃ h1 h2, Order h n o1 = .ok (h1, n) ∧ Order h1 n o2 = .ok (h2, n) ∧
      h2.orderAt n = some o2) := by
  obtain ⟨a, ha, he1⟩ := Order_eq h n nd o1 hn
  subst ha
  obtain ⟨a2, ha2, he2⟩ := Order_eq h (some a) nd o2 hn
  cases ha2
  constructor
  · refine ⟨_, o2, he2, ?_, rfl, rfl, fun _ => rfl⟩
    simp [Heap.orderAt, Heap.deref]
  · obtain ⟨b, hb, he3⟩ := Order_eq
      { h with nodes := Function.update h.nodes a (some { nd with OrderList := o1 }) }
      (some a) { nd with OrderList := o1 } o2 (by simp [Heap.deref])
    cases hb
    refine ⟨_, _, he1, he3, ?_⟩
    simp [Heap.orderAt, Heap.deref]

/-- Witness of C3 on the node `newSideloadNode` builds. -/
theorem Order_sets_and_replaces_witness :
    freshHeap.deref freshNode = some freshStruct ∧
    (∃ h1 l, Order freshHeap freshNode ["default.yml"] = .ok (h1, freshNode) ∧
      h1.orderAt freshNode = some l ∧ l = ["default.yml"] ∧
      l.length = ["default.yml"].length ∧ ∀ i : Nat, l[i]? = ["default.yml"][i]?) ∧
    (∃ h1 h2, Order freshHeap freshNode ["host/{host}.yml", "default.yml"] = .ok (h1, freshNode) ∧
      Order h1 freshNode ["default.yml"] = .ok (h2, freshNode) ∧
      h2.orderAt freshNode = some ["default.yml"]) :=
  ⟨rfl, Order_sets_and_replaces freshHeap freshNode freshStruct
    ["host/{host}.yml", "default.yml"] ["default.yml"] rfl⟩

/-- C4, as stated, fails: the chain made of the single call `Order()` on a
node fresh from `newSideloadNode` includes an `Order` call and leaves
`OrderList` empty. -/
theorem Order_without_templates_leaves_OrderList_empty :
    (lastOrder [Call.order []]).isSome = true ∧
    ∃ h1, runCalls freshHeap freshNode [Call.order []] = .ok (h1, freshNode) ∧
      h1.orderAt freshNode = some [] :=
  ⟨rfl, _, rfl, rfl⟩

/-- C4, amended: for every node obtained from `newSideloadNode` by a chain of
`Order`, `Field` and `Tag` calls whose last `Order` call was given the
templates `o`, the chain returns normally and `OrderList` is exactly `o`; so
it has at least one template exactly when that last call was given one. -/
theorem OrderList_is_last_Order {χ ε : Type} (mk : String → ε → ε → χ) (wants : ε) (h0 : Heap χ)
    (cs : List Call) (o : List String) (hlast : lastOrder cs = some o) :
    ∃ h1 l, runCalls (newSideloadNode mk wants h0).1 (newSideloadNode mk wants h0).2 cs =
        .ok (h1, (newSideloadNode mk wants h0).2) ∧
      h1.orderAt (newSideloadNode mk wants h0).2 = some l ∧ l = o ∧
      (1 ≤ l.length ↔ o ≠ []) := by
  obtain ⟨h1, hrun, _, hord, _⟩ :=
    runCalls_spec (newSideloadNode mk wants h0).2 cs _ (newSideloadNode_initialised mk wants h0)
  refine ⟨h1, o, hrun, ?_, rfl, ?_⟩
  · rw [hord, hlast]
  · cases o with
    | nil => simp
    | cons t ts => simp

/-- Witness of the amended C4 on a chain with two `Order` calls. -/
theorem OrderList_is_last_Order_witness :
    lastOrder [Call.order ["a.yml"], Call.field "x" (.scalar (.int 1)),
        Call.order ["host/{host}.yml", "default.yml"], Call.tag "t" "v"]
      = some ["host/{host}.yml", "default.yml"] ∧
    ∃ h1 l, runCalls (newSideloadNode unitChain () Heap.empty).1
        (newSideloadNode unitChain () Heap.empty).2
        [Call.order ["a.yml"], Call.field "x" (.scalar (.int 1)),
          Call.order ["host/{host}.yml", "default.yml"], Call.tag "t" "v"] =
        .ok (h1, (newSideloadNode unitChain () Heap.empty).2) ∧
      h1.orderAt (newSideloadNode unitChain () Heap.empty).2 = some l ∧
      l = ["host/{host}.yml", "default.yml"] ∧
      (1 ≤ l.length ↔ ["host/{host}.yml", "default.yml"] ≠ []) :=
  ⟨rfl, OrderList_is_last_Order unitChain () Heap.empty _ _ rfl⟩

/-- C5, as stated, fails: `Field` given a `time.Duration`, which is none of
the four scalar kinds, returns normally on a fresh node and enrols the field
with that value. -/
theorem Field_enrols_non_scalar_default :
    (GoValue.duration 10000000000).isScalar = false ∧
    ∃ h1, Field freshHeap freshNode "timeout" (.duration 10000000000) = .ok (h1, freshNode) ∧
      h1.fieldAt freshNode "timeout" = some (.duration 10000000000) := by
  refine ⟨rfl, _, rfl, ?_⟩
  simp [Heap.fieldAt, Heap.deref, freshNode, freshHeap, newSideloadNode, Heap.empty,
    Finmap.lookup_insert]

/-- C5, amended: `Field` checks no kind.  For every default `v`, scalar or
not, `Field(f, v)` on a node whose `Fields` map is initialised returns
normally and enrols `f` with `v`.  Every value held in the `Fields` map of a
node obtained from `newSideloadNode` by a chain of `Order`, `Field` and `Tag`
calls is a default passed to a `Field` call of the chain under that name, and
so is a scalar whenever every `Field` call of the chain was given a scalar. -/
theorem Fields_hold_the_defaults_passed {χ ε : Type} (mk : String → ε → ε → χ) (wants : ε)
    (h0 : Heap χ) :
    (∀ (h : Heap χ) (n : Option Addr) (nd : SideloadNode χ) (m : Addr) (f : String) (v : GoValue),
      h.deref n = some nd → nd.Fields = some m →
      ∃ h1, Field h n f v = .ok (h1, n) ∧ h1.fieldAt n f = some v) ∧
    (∀ cs : List Call, ∃ h1,
      runCalls (newSideloadNode mk wants h0).1 (newSideloadNode mk wants h0).2 cs =
        .ok (h1, (newSideloadNode mk wants h0).2) ∧
      (∀ f v, h1.fieldAt (newSideloadNode mk wants h0).2 f = some v → Call.field f v ∈ cs) ∧
      (allFieldDefaultsScalar cs = true →
        ∀ f v, h1.fieldAt (newSideloadNode mk wants h0).2 f = some v → v.isScalar = true)) := by
  constructor
  · intro h n nd m f v hn hm
    have hc : (Call.field f v).run h n = .ok (_, n) := Field_eq h n nd m f v hn hm
    refine ⟨_, Field_eq h n nd m f v hn hm, ?_⟩
    have hat := (Call.run_fieldAt h _ n n (.field f v) hc).2 f
    simpa using hat
  · intro cs
    obtain ⟨h1, hrun, _, _, hfld⟩ :=
      runCalls_spec (newSideloadNode mk wants h0).2 cs _ (newSideloadNode_initialised mk wants h0)
    have hmem : ∀ f v, h1.fieldAt (newSideloadNode mk wants h0).2 f = some v →
        Call.field f v ∈ cs := by
      intro f v hv
      rcases hfld f v hv with hy | hy
      · rw [newSideloadNode_fieldAt] at hy
        cases hy
      · exact hy
    exact ⟨h1, hrun, hmem, fun hall f v hv => isScalar_of_mem cs f v hall (hmem f v hv)⟩

/-- C8: each setter changes only its own part of the configuration.  On every
node, `Order` leaves the struct's `Fields`, `Tags` and `Source` and the
contents of every map object as they were.  `Field`, on an initialised
`Fields` map, leaves the struct (its `Tags`, `OrderList` and `Source`) and the
contents of every tag map as they were, and `Tag`, on an initialised `Tags`
map, leaves the struct (its `Fields`, `OrderList` and `Source`) and the
contents of every field map as they were.  On a nil map `Field` and `Tag`
panic and produce no new state. -/
theorem setters_frame {χ : Type} (h : Heap χ) (n : Option Addr) (nd : SideloadNode χ)
    (hn : h.deref n = some nd) :
    (∀ order, ∃ h1 nd1, Order h n order = .ok (h1, n) ∧ h1.deref n = some nd1 ∧
      nd1.Fields = nd.Fields ∧ nd1.Tags = nd.Tags ∧ nd1.Source = nd.Source ∧
      h1.fieldMaps = h.fieldMaps ∧ h1.tagMaps = h.tagMaps) ∧
    (∀ f v, (∀ m, nd.Fields = some m → ∃ h1 nd1, Field h n f v = .ok (h1, n) ∧
        h1.deref n = some nd1 ∧
        nd1.Tags = nd.Tags ∧ nd1.OrderList = nd.OrderList ∧ nd1.Source = nd.Source ∧
        h1.tagMaps = h.tagMaps ∧ (∀ t, h1.tagAt n t = h.tagAt n t) ∧
        h1.orderAt n = h.orderAt n ∧ h1.sourceAt n = h.sourceAt n) ∧
      (nd.Fields = none → Field h n f v = .error .assignmentToEntryInNilMap)) ∧
    (∀ t v, (∀ m, nd.Tags = some m → ∃ h1 nd1, Tag h n t v = .ok (h1, n) ∧
        h1.deref n = some nd1 ∧
        nd1.Fields = nd.Fields ∧ nd1.OrderList = nd.OrderList ∧ nd1.Source = nd.Source ∧
        h1.fieldMaps = h.fieldMaps ∧ (∀ f, h1.fieldAt n f = h.fieldAt n f) ∧
        h1.orderAt n = h.orderAt n ∧ h1.sourceAt n = h.sourceAt n) ∧
      (nd.Tags = none → Tag h n t v = .error .assignmentToEntryInNilMap)) := by
  cases n with
  | none => simp [Heap.deref] at hn
  | some a =>
    have hn1 : h.nodes a = some nd := by simpa [Heap.deref] using hn
    refine ⟨?_, ?_, ?_⟩
    · intro order
      obtain ⟨b, hb, he⟩ := Order_eq h (some a) nd order hn
      cases hb
      exact ⟨_, { nd with OrderList := order }, he, by simp [Heap.deref], rfl, rfl, rfl, rfl, rfl⟩
    · intro f v
      constructor
      · intro m hm
        refine ⟨_, nd, Field_eq h (some a) nd m f v hn hm, ?_, rfl, rfl, rfl, rfl, ?_, ?_, ?_⟩
        · simpa [Heap.deref] using hn1
        · intro t
          simp [Heap.tagAt, Heap.deref]
        · simp [Heap.orderAt, Heap.deref]
        · simp [Heap.sourceAt, Heap.deref]
      · intro hnil
        simp [Field, hn1, hnil]
    · intro t v
      constructor
      · intro m hm
        refine ⟨_, nd, Tag_eq h (some a) nd m t v hn hm, ?_, rfl, rfl, rfl, rfl, ?_, ?_, ?_⟩
        · simpa [Heap.deref] using hn1
        · intro f
          simp [Heap.fieldAt, Heap.deref]
        · simp [Heap.orderAt, Heap.deref]
        · simp [Heap.sourceAt, Heap.deref]
      · intro hnil
        simp [Tag, hn1, hnil]

/-- Witness of C8 on the node `newSideloadNode` builds. -/
theorem setters_frame_witness :
    freshHeap.deref freshNode = some freshStruct ∧
    ∃ h1 nd1, Field freshHeap freshNode "cpu_threshold" (.scalar (.int 80)) = .ok (h1, freshNode) ∧
      h1.deref freshNode = some nd1 ∧
      nd1.Tags = freshStruct.Tags ∧ nd1.OrderList = freshStruct.OrderList ∧
      nd1.Source = freshStruct.Source ∧
      h1.tagMaps = freshHeap.tagMaps ∧ (∀ t, h1.tagAt freshNode t = freshHeap.tagAt freshNode t) ∧
      h1.orderAt freshNode = freshHeap.orderAt freshNode ∧
      h1.sourceAt freshNode = freshHeap.sourceAt freshNode :=
  ⟨rfl, ((setters_frame freshHeap freshNode freshStruct rfl).2.1
    "cpu_threshold" (.scalar (.int 80))).1 0 rfl⟩

/-- C9: the node `newSideloadNode` returns has an initialised, empty `Fields`
map, an initialised, empty `Tags` map, an empty `OrderList` and an empty
`Source`; every `Order`, `Field` and `Tag` call on a node with both maps
initialised returns normally and keeps both maps initialised; hence every
chain of such calls on the new node returns normally, with no write to a nil
map, and ends with both maps initialised. -/
theorem newSideloadNode_maps_stay_initialised {χ ε : Type} (mk : String → ε → ε → χ)
    (wants : ε) (h : Heap χ) :
    (∃ nd mf mt, (newSideloadNode mk wants h).1.deref (newSideloadNode mk wants h).2 = some nd ∧
      nd.Fields = some mf ∧ (newSideloadNode mk wants h).1.fieldMaps mf = ∅ ∧
      nd.Tags = some mt ∧ (newSideloadNode mk wants h).1.tagMaps mt = ∅ ∧
      nd.OrderList = [] ∧ nd.Source = "") ∧
    (∀ (h1 : Heap χ) (n : Option Addr) (c : Call), MapsInitialised h1 n →
      ∃ h2, c.run h1 n = .ok (h2, n) ∧ MapsInitialised h2 n) ∧
    (∀ cs : List Call, ∃ h2,
      runCalls (newSideloadNode mk wants h).1 (newSideloadNode mk wants h).2 cs =
        .ok (h2, (newSideloadNode mk wants h).2) ∧
      MapsInitialised h2 (newSideloadNode mk wants h).2) := by
  refine ⟨newSideloadNode_spec mk wants h, ?_, ?_⟩
  · intro h1 n c hi
    obtain ⟨h2, hrun, hi2, _⟩ := Call.run_spec h1 n c hi
    exact ⟨h2, hrun, hi2⟩
  · intro cs
    obtain ⟨h2, hrun, hi2, _⟩ :=
      runCalls_spec (newSideloadNode mk wants h).2 cs _ (newSideloadNode_initialised mk wants h)
    exact ⟨h2, hrun, hi2⟩

/-- C10: on a node with both maps initialised, two `Field` calls for distinct
names give the same heap (so the same `Fields` map) and the same pointer in
either order, and so do two `Tag` calls for distinct names and a `Field` call
against a `Tag` call; and `Field(f, v1)` followed by `Field(f, v2)` gives the
same heap and pointer as `Field(f, v2)` alone.  Each of these chains returns
normally. -/
theorem setters_commute_and_override {χ : Type} (h : Heap χ) (n : Option Addr)
    (nd : SideloadNode χ) (mf mt : Addr)
    (hn : h.deref n = some nd) (hf : nd.Fields = some mf) (ht : nd.Tags = some mt) :
    (∀ f1 v1 f2 v2, f1 ≠ f2 →
      runCalls h n [.field f1 v1, .field f2 v2] = runCalls h n [.field f2 v2, .field f1 v1] ∧
      ∃ h2, runCalls h n [.field f1 v1, .field f2 v2] = .ok (h2, n)) ∧
    (∀ t1 v1 t2 v2, t1 ≠ t2 →
      runCalls h n [.tag t1 v1, .tag t2 v2] = runCalls h n [.tag t2 v2, .tag t1 v1] ∧
      ∃ h2, runCalls h n [.tag t1 v1, .tag t2 v2] = .ok (h2, n)) ∧
    (∀ f v t w,
      runCalls h n [.field f v, .tag t w] = runCalls h n [.tag t w, .field f v] ∧
      ∃ h2, runCalls h n [.field f v, .tag t w] = .ok (h2, n)) ∧
    (∀ f v1 v2,
      runCalls h n [.field f v1, .field f v2] = runCalls h n [.field f v2] ∧
      ∃ h2, runCalls h n [.field f v2] = .ok (h2, n)) := by
  cases n with
  | none => simp [Heap.deref] at hn
  | some a =>
    have hn1 : h.nodes a = some nd := by simpa [Heap.deref] using hn
    refine ⟨?_, ?_, ?_, ?_⟩
    · intro f1 v1 f2 v2 hne
      simp [runCalls, Call.run, Field, hn1, hf, Finmap.insert_insert_of_ne _ hne]
    · intro t1 v1 t2 v2 hne
      simp [runCalls, Call.run, Tag, hn1, ht, Finmap.insert_insert_of_ne _ hne]
    · intro f v t w
      simp [runCalls, Call.run, Field, Tag, hn1, hf, ht]
    · intro f v1 v2
      simp [runCalls, Call.run, Field, hn1, hf, Finmap.insert_insert]

/-- Witness of C10 on the node `newSideloadNode` builds. -/
theorem setters_commute_and_override_witness :
    freshHeap.deref freshNode = some freshStruct ∧ freshStruct.Fields = some 0 ∧
    freshStruct.Tags = some 0 ∧ "a" ≠ "b" ∧
    runCalls freshHeap freshNode [.field "a" (.scalar (.int 1)), .field "b" (.scalar (.bool true))] =
      runCalls freshHeap freshNode [.field "b" (.scalar (.bool true)), .field "a" (.scalar (.int 1))] ∧
    ∃ h2, runCalls freshHeap freshNode
      [.field "a" (.scalar (.int 1)), .field "b" (.scalar (.bool true))] = .ok (h2, freshNode) :=
  ⟨rfl, rfl, rfl, by decide,
    (setters_commute_and_override freshHeap freshNode freshStruct 0 0 rfl rfl rfl).1
      "a" (.scalar (.int 1)) "b" (.scalar (.bool true)) (by decide)⟩

/-! ## Properties of the resolution engine -/

/-- A `get` does not change the document the cache yields for any path. -/
theorem get_sameView (src : Source) (c : DocumentCache) (p : String) :
    SameView src c (DocumentCache.get src c p).2.2 := by
  intro q
  unfold docAt
  cases hp : c.entries.lookup p with
  | some e => simp [DocumentCache.get, hp]
  | none =>
    cases hs : src p with
    | loadError k => simp [DocumentCache.get, hp, hs]
    | notFound =>
      by_cases hq : q = p
      · subst hq
        simp [DocumentCache.get, hp, hs, Finmap.lookup_insert]
      · cases hq2 : c.entries.lookup q <;> cases hs2 : src q <;>
          simp [DocumentCache.get, hp, hs, hq2, hs2, Finmap.lookup_insert_of_ne _ hq]
    | document d =>
      by_cases hq : q = p
      · subst hq
        simp [DocumentCache.get, hp, hs, Finmap.lookup_insert]
      · cases hq2 : c.entries.lookup q <;> cases hs2 : src q <;>
          simp [DocumentCache.get, hp, hs, hq2, hs2, Finmap.lookup_insert_of_ne _ hq]

/-- A step of the walk over a path whose document is not found. -/
theorem search_cons_notFound (src : Source) (accept : Scalar → Bool) (key p : String)
    (ps : List String) (c : DocumentCache) (errs : List ResolveError)
    (hdoc : docAt src c p = .notFound) :
    search src accept key (p :: ps) c errs =
      search src accept key ps (DocumentCache.get src c p).2.2
        (recordLoad errs (DocumentCache.get src c p).2.1) := by
  unfold docAt at hdoc
  rcases hget : DocumentCache.get src c p with ⟨entry, e, c1⟩
  rw [hget] at hdoc
  cases hdoc
  simp [search, hget]

/-- A step of the walk over a document that lacks the key. -/
theorem search_cons_absent (src : Source) (accept : Scalar → Bool) (key p : String)
    (ps : List String) (c : DocumentCache) (errs : List ResolveError) (d : Document)
    (hdoc : docAt src c p = .document d) (hk : d.lookup key = none) :
    search src accept key (p :: ps) c errs =
      search src accept key ps (DocumentCache.get src c p).2.2
        (recordLoad errs (DocumentCache.get src c p).2.1) := by
  unfold docAt at hdoc
  rcases hget : DocumentCache.get src c p with ⟨entry, e, c1⟩
  rw [hget] at hdoc
  cases hdoc
  simp [search, hget, hk]

/-- A step of the walk over a document that holds an acceptable value. -/
theorem search_cons_accept (src : Source) (accept : Scalar → Bool) (key p : String)
    (ps : List String) (c : DocumentCache) (errs : List ResolveError) (d : Document) (v : Scalar)
    (hdoc : docAt src c p = .document d) (hk : d.lookup key = some v) (ha : accept v = true) :
    search src accept key (p :: ps) c errs =
      (some v, recordLoad errs (DocumentCache.get src c p).2.1,
        (DocumentCache.get src c p).2.2) := by
  unfold docAt at hdoc
  rcases hget : DocumentCache.get src c p with ⟨entry, e, c1⟩
  rw [hget] at hdoc
  cases hdoc
  simp [search, hget, hk, ha]

/-- A step of the walk over a document that holds a value of another kind. -/
theorem search_cons_reject (src : Source) (accept : Scalar → Bool) (key p : String)
    (ps : List String) (c : DocumentCache) (errs : List ResolveError) (d : Document) (v : Scalar)
    (hdoc : docAt src c p = .document d) (hk : d.lookup key = some v) (ha : accept v = false) :
    search src accept key (p :: ps) c errs =
      search src accept key ps (DocumentCache.get src c p).2.2
        (recordLoad errs (DocumentCache.get src c p).2.1 ++ [.typeMismatch key p]) := by
  unfold docAt at hdoc
  rcases hget : DocumentCache.get src c p with ⟨entry, e, c1⟩
  rw [hget] at hdoc
  cases hdoc
  simp [search, hget, hk, ha]

/-- An error already recorded stays recorded. -/
theorem mem_recordLoad (errs : List ResolveError) (e : Option ResolveError) (x : ResolveError)
    (hx : x ∈ errs) : x ∈ recordLoad errs e := by
  cases e with
  | none => simpa [recordLoad] using hx
  | some y =>
    by_cases hy : y ∈ errs
    · simpa [recordLoad, hy] using hx
    · simp [recordLoad, hy, hx]

/-- The walk only adds to the errors recorded. -/
theorem search_errors_mono (src : Source) (accept : Scalar → Bool) (key : String)
    (x : ResolveError) :
    ∀ (ps : List String) (c : DocumentCache) (errs : List ResolveError),
      x ∈ errs → x ∈ (search src accept key ps c errs).2.1 := by
  intro ps
  induction ps with
  | nil => intro c errs hx; simpa [search] using hx
  | cons p ps ih =>
    intro c errs hx
    have hx1 := mem_recordLoad errs (DocumentCache.get src c p).2.1 x hx
    cases hdoc : docAt src c p with
    | notFound =>
      rw [search_cons_notFound src accept key p ps c errs hdoc]
      exact ih _ _ hx1
    | document d =>
      cases hk : d.lookup key with
      | none =>
        rw [search_cons_absent src accept key p ps c errs d hdoc hk]
        exact ih _ _ hx1
      | some v =>
        cases ha : accept v with
        | true =>
          rw [search_cons_accept src accept key p ps c errs d v hdoc hk ha]
          exact hx1
        | false =>
          rw [search_cons_reject src accept key p ps c errs d v hdoc hk ha]
          exact ih _ _ (List.mem_append_left _ hx1)

/-- A value the walk adopts is of an acceptable kind. -/
theorem search_accept (src : Source) (accept : Scalar → Bool) (key : String) (v : Scalar) :
    ∀ (ps : List String) (c : DocumentCache) (errs : List ResolveError),
      (search src accept key ps c errs).1 = some v → accept v = true := by
  intro ps
  induction ps with
  | nil => intro c errs hv; simp [search] at hv
  | cons p ps ih =>
    intro c errs hv
    cases hdoc : docAt src c p with
    | notFound =>
      rw [search_cons_notFound src accept key p ps c errs hdoc] at hv
      exact ih _ _ hv
    | document d =>
      cases hk : d.lookup key with
      | none =>
        rw [search_cons_absent src accept key p ps c errs d hdoc hk] at hv
        exact ih _ _ hv
      | some w =>
        cases ha : accept w with
        | true =>
          rw [search_cons_accept src accept key p ps c errs d w hdoc hk ha] at hv
          cases hv
          exact ha
        | false =>
          rw [search_cons_reject src accept key p ps c errs d w hdoc hk ha] at hv
          exact ih _ _ hv

/-- A step of the walk over a path that yields no acceptable value goes on
with the rest of the paths, in a cache with the same view. -/
theorem search_cons_noHit (src : Source) (accept : Scalar → Bool) (key p : String)
    (ps : List String) (c0 c : DocumentCache) (errs : List ResolveError)
    (hview : SameView src c0 c) (hno : NoHit src c0 accept key p) :
    ∃ c1 errs1, SameView src c0 c1 ∧ (∀ x, x ∈ errs → x ∈ errs1) ∧
      search src accept key (p :: ps) c errs = search src accept key ps c1 errs1 := by
  have hview1 : SameView src c0 (DocumentCache.get src c p).2.2 := fun q =>
    (get_sameView src c p q).trans (hview q)
  have hmono : ∀ x, x ∈ errs → x ∈ recordLoad errs (DocumentCache.get src c p).2.1 :=
    fun x hx => mem_recordLoad errs _ x hx
  cases hdoc : docAt src c p with
  | notFound =>
    exact ⟨_, _, hview1, hmono, search_cons_notFound src accept key p ps c errs hdoc⟩
  | document d =>
    cases hk : d.lookup key with
    | none =>
      exact ⟨_, _, hview1, hmono, search_cons_absent src accept key p ps c errs d hdoc hk⟩
    | some v =>
      cases ha : accept v with
      | true => exact absurd ⟨d, (hview p).symm.trans hdoc, hk, ha⟩ (hno v)
      | false =>
        exact ⟨_, _, hview1, fun x hx => List.mem_append_left _ (hmono x hx),
          search_cons_reject src accept key p ps c errs d v hdoc hk ha⟩

/-- The walk adopts nothing when no path yields an acceptable value. -/
theorem search_none (src : Source) (accept : Scalar → Bool) (key : String) (c0 : DocumentCache) :
    ∀ (ps : List String) (c : DocumentCache) (errs : List ResolveError),
      SameView src c0 c → (∀ q ∈ ps, NoHit src c0 accept key q) →
      (search src accept key ps c errs).1 = none := by
  intro ps
  induction ps with
  | nil => intro c errs _ _; simp [search]
  | cons p ps ih =>
    intro c errs hview hno
    obtain ⟨c1, errs1, hview1, _, he⟩ := search_cons_noHit src accept key p ps c0 c errs hview
      (hno p (List.mem_cons_self _ _))
    rw [he]
    exact ih c1 errs1 hview1 (fun q hq => hno q (List.mem_cons_of_mem _ hq))

/-- The walk adopts the value of the earliest path that yields an acceptable
one. -/
theorem search_first_hit (src : Source) (accept : Scalar → Bool) (key : String)
    (c0 : DocumentCache) (p : String) (v : Scalar) (post : List String)
    (hhit : Hit src c0 accept key p v) :
    ∀ (pre : List String) (c : DocumentCache) (errs : List ResolveError),
      SameView src c0 c → (∀ q ∈ pre, NoHit src c0 accept key q) →
      (search src accept key (pre ++ p :: post) c errs).1 = some v := by
  intro pre
  induction pre with
  | nil =>
    intro c errs hview _
    obtain ⟨d, hd, hk, ha⟩ := hhit
    have hd1 : docAt src c p = .document d := (hview p).trans hd
    simp only [List.nil_append]
    rw [search_cons_accept src accept key p post c errs d v hd1 hk ha]
  | cons q pre ih =>
    intro c errs hview hno
    obtain ⟨c1, errs1, hview1, _, he⟩ := search_cons_noHit src accept key q (pre ++ p :: post)
      c0 c errs hview (hno q (List.mem_cons_self _ _))
    simp only [List.cons_append]
    rw [he]
    exact ih c1 errs1 hview1 (fun r hr => hno r (List.mem_cons_of_mem _ hr))

/-- A value of an unacceptable kind met before any acceptable one leaves a
type error for its key and path. -/
theorem search_mismatch (src : Source) (accept : Scalar → Bool) (key : String)
    (c0 : DocumentCache) (p : String) (post : List String)
    (hmis : Mismatch src c0 accept key p) :
    ∀ (pre : List String) (c : DocumentCache) (errs : List ResolveError),
      SameView src c0 c → (∀ q ∈ pre, NoHit src c0 accept key q) →
      ResolveError.typeMismatch key p ∈ (search src accept key (pre ++ p :: post) c errs).2.1 := by
  intro pre
  induction pre with
  | nil =>
    intro c errs hview _
    obtain ⟨d, v, hd, hk, ha⟩ := hmis
    have hd1 : docAt src c p = .document d := (hview p).trans hd
    simp only [List.nil_append]
    rw [search_cons_reject src accept key p post c errs d v hd1 hk ha]
    exact search_errors_mono src accept key _ _ _ _ (by simp)
  | cons q pre ih =>
    intro c errs hview hno
    obtain ⟨c1, errs1, hview1, _, he⟩ := search_cons_noHit src accept key q (pre ++ p :: post)
      c0 c errs hview (hno q (List.mem_cons_self _ _))
    simp only [List.cons_append]
    rw [he]
    exact ih c1 errs1 hview1 (fun r hr => hno r (List.mem_cons_of_mem _ hr))

/-- A path that holds a value of another kind for the key yields no
acceptable value. -/
theorem noHit_of_mismatch (src : Source) (c : DocumentCache) (accept : Scalar → Bool)
    (key p : String) (hmis : Mismatch src c accept key p) : NoHit src c accept key p := by
  obtain ⟨d, v, hd, hk, ha⟩ := hmis
  rintro w ⟨d1, hd1, hk1, ha1⟩
  rw [hd] at hd1
  cases hd1
  rw [hk] at hk1
  cases hk1
  rw [ha] at ha1
  cases ha1

/-- Among the paths up to one that yields an acceptable value there is an
earliest one that does. -/
theorem exists_first_hit (src : Source) (c : DocumentCache) (accept : Scalar → Bool)
    (key p : String) (v : Scalar) (hhit : Hit src c accept key p v) :
    ∀ pre : List String, ∃ pre0 p0 post0 v0, pre ++ [p] = pre0 ++ p0 :: post0 ∧
      (∀ q ∈ pre0, NoHit src c accept key q) ∧ Hit src c accept key p0 v0 := by
  intro pre
  induction pre with
  | nil => exact ⟨[], p, [], v, rfl, ⟨fun q hq => absurd hq (List.not_mem_nil q), hhit⟩⟩
  | cons a pre ih =>
    by_cases ha : NoHit src c accept key a
    · obtain ⟨pre0, p0, post0, v0, he, hno, hh⟩ := ih
      refine ⟨a :: pre0, p0, post0, v0, by simp [he], ?_, hh⟩
      intro q hq
      rcases List.mem_cons.mp hq with hy | hy
      · rw [hy]
        exact ha
      · exact hno q hy
    · have hex : ∃ w, Hit src c accept key a w := by
        by_contra hcon
        exact ha (fun w hw => hcon ⟨w, hw⟩)
      obtain ⟨w, hw⟩ := hex
      exact ⟨[], a, pre ++ [p], w, rfl, ⟨fun q hq => absurd hq (List.not_mem_nil q), hw⟩⟩

/-- An element of a `filterMap` comes from an element of the list, and what
stands before and after it comes from what stands before and after that. -/
theorem filterMap_eq_append_cons {α β : Type} (g : α → Option β) :
    ∀ (l : List α) (pre : List β) (x : β) (rest : List β),
      l.filterMap g = pre ++ x :: rest →
      ∃ A s B, l = A ++ s :: B ∧ g s = some x ∧ A.filterMap g = pre ∧ B.filterMap g = rest := by
  intro l
  induction l with
  | nil =>
    intro pre x rest he
    simp at he
  | cons a l ih =>
    intro pre x rest he
    cases hga : g a with
    | none =>
      rw [List.filterMap_cons_none hga] at he
      obtain ⟨A, s, B, hl, hs, hA, hB⟩ := ih pre x rest he
      exact ⟨a :: A, s, B, by simp [hl], hs, by simp [List.filterMap_cons_none hga, hA], hB⟩
    | some y =>
      rw [List.filterMap_cons_some hga] at he
      cases pre with
      | nil =>
        simp only [List.nil_append, List.cons.injEq] at he
        obtain ⟨hy, hrest⟩ := he
        subst hy
        exact ⟨[], a, l, rfl, hga, rfl, hrest⟩
      | cons b pre =>
        simp only [List.cons_append, List.cons.injEq] at he
        obtain ⟨hy, hrest⟩ := he
        subst hy
        obtain ⟨A, s, B, hl, hs, hA, hB⟩ := ih pre x rest hrest
        exact ⟨a :: A, s, B, by simp [hl], hs, by simp [List.filterMap_cons_some hga, hA], hB⟩

/-- The paths of a parsed order are the paths of its entries, in order. -/
theorem expand_parseOrder (tags : StrMap String) :
    ∀ (o : List String) (ts : List PathTemplate), parseOrder o = some ts →
      expand ts tags = o.filterMap (pathOfEntry tags) := by
  intro o
  induction o with
  | nil =>
    intro ts hp
    simp [parseOrder] at hp
    subst hp
    rfl
  | cons s o ih =>
    intro ts hp
    cases ht : parseTemplate s with
    | none => simp [parseOrder, ht] at hp
    | some t =>
      cases hr : parseOrder o with
      | none => simp [parseOrder, ht, hr] at hp
      | some ts1 =>
        simp [parseOrder, ht, hr] at hp
        subst hp
        have ih1 := ih ts1 hr
        unfold expand at ih1 ⊢
        cases he : expandOne tags t with
        | none =>
          rw [List.filterMap_cons_none he, List.filterMap_cons_none (by simp [pathOfEntry, ht, he])]
          exact ih1
        | some q =>
          rw [List.filterMap_cons_some he,
            List.filterMap_cons_some (by simp [pathOfEntry, ht, he] : pathOfEntry tags s = some q)]
          rw [ih1]

/-- What a configuration that builds holds. -/
theorem ofNode_ok {χ : Type} (h : Heap χ) (nd : SideloadNode χ) (cfg : SideloadConfig)
    (hcfg : SideloadConfig.ofNode h nd = .ok cfg) :
    parseOrder nd.OrderList = some cfg.order ∧ cfg.fields = h.fieldsOf nd ∧
      cfg.tags = h.tagsOf nd ∧ allScalar (h.fieldsOf nd) = true := by
  unfold SideloadConfig.ofNode at hcfg
  split at hcfg
  · split at hcfg
    · cases hcfg
    · rename_i ts hts
      split at hcfg
      · rename_i hall
        cases hcfg
        exact ⟨hts, rfl, rfl, hall⟩
      · cases hcfg
  · cases hcfg

/-- A default held in a map of scalars is a scalar. -/
theorem scalar_of_allScalar (m : StrMap GoValue) (f : String) (v : GoValue)
    (hall : allScalar m = true) (hv : m.lookup f = some v) : ∃ d, v = .scalar d := by
  unfold allScalar at hall
  have h1 := of_decide_eq_true hall f (Finmap.mem_keys.mpr (Finmap.mem_of_lookup_eq_some hv))
  simp only [scalarAt, hv] at h1
  cases v with
  | scalar d => exact ⟨d, rfl⟩
  | nilValue => simp [GoValue.isScalar] at h1
  | duration ns => simp [GoValue.isScalar] at h1
  | list items => simp [GoValue.isScalar] at h1

/-- The value a `Field` call leaves in the `Fields` map of its receiver. -/
theorem fieldsOf_after_Field {χ : Type} (h0 h : Heap χ) (n : Option Addr) (nd : SideloadNode χ)
    (f : String) (v : GoValue) (henrol : Field h0 n f v = .ok (h, n))
    (hn : h.deref n = some nd) : (h.fieldsOf nd).lookup f = some v := by
  cases n with
  | none => simp [Heap.deref] at hn
  | some a =>
    cases hnd : h0.nodes a with
    | none => simp [Field, hnd] at henrol
    | some nd0 =>
      cases hm : nd0.Fields with
      | none => simp [Field, hnd, hm] at henrol
      | some m =>
        simp [Field, hnd, hm] at henrol
        subst henrol
        simp only [Heap.deref] at hn
        rw [hnd] at hn
        cases hn
        simp [Heap.fieldsOf, hm, Finmap.lookup_insert]

/-- The outcome of resolving a configured field, by the walk. -/
theorem resolveField_eq (src : Source) (c : DocumentCache) (cfg : SideloadConfig) (pt : Point)
    (f : String) (d : Scalar) (hd : cfg.fieldDefault f = some d) :
    resolveField src c cfg pt f = some
      { value := (search src (acceptField d) f (expand cfg.order pt.tags) c []).1.getD d
        errors := (search src (acceptField d) f (expand cfg.order pt.tags) c []).2.1
        cache := (search src (acceptField d) f (expand cfg.order pt.tags) c []).2.2 } := by
  rcases hS : search src (acceptField d) f (expand cfg.order pt.tags) c [] with ⟨hit, errs, c1⟩
  simp [resolveField, hd, hS]

/-- The outcome of resolving a configured tag when the walk adopts a value. -/
theorem resolveTag_of_hit (src : Source) (c : DocumentCache) (cfg : SideloadConfig) (pt : Point)
    (t : String) (dflt : String) (v : Scalar) (hd : cfg.tags.lookup t = some dflt)
    (hv : (search src acceptTag t (expand cfg.order pt.tags) c []).1 = some v) :
    ∃ r, resolveTag src c cfg pt t = some r ∧ Scalar.str r.value = v := by
  have ha := search_accept src acceptTag t v _ _ _ hv
  rcases hS : search src acceptTag t (expand cfg.order pt.tags) c [] with ⟨hit, errs, c1⟩
  rw [hS] at hv
  simp only at hv
  subst hv
  cases v with
  | str s => exact ⟨{ value := s, errors := errs, cache := c1 }, by simp [resolveTag, hd, hS], rfl⟩
  | int i => simp [acceptTag, Scalar.kind] at ha
  | float b => simp [acceptTag, Scalar.kind] at ha
  | bool b => simp [acceptTag, Scalar.kind] at ha

/-- C6: type safety of loaded fields.  Let `Field(f, dflt)` have enrolled `f`
on a node, let any chain of further property calls that does not enrol `f`
again have followed, and let the configuration of the node then build.  For
every source, cache state and point the node resolves a value for `f`, and its
kind is the kind of `dflt` (which is a scalar).  Whenever the walk over the
expanded paths meets, before any acceptable value, a document whose value for
`f` has another kind, a type error for `f` at that path is recorded, and if no
later path yields a value of the right kind either, the value resolved is
the default; so it is too when no path yields a value of the right kind at
all. -/
theorem resolved_field_has_kind_of_default {χ : Type} (h0 h1 h : Heap χ) (n : Option Addr)
    (cs : List Call) (nd : SideloadNode χ) (cfg : SideloadConfig) (f : String) (dflt : GoValue)
    (src : Source) (c : DocumentCache) (pt : Point)
    (henrol : Field h0 n f dflt = .ok (h1, n))
    (hrest : runCalls h1 n cs = .ok (h, n))
    (hkeep : ∀ v, Call.field f v ∉ cs)
    (hn : h.deref n = some nd)
    (hcfg : SideloadConfig.ofNode h nd = .ok cfg) :
    ∃ d r, dflt = .scalar d ∧ resolveField src c cfg pt f = some r ∧
      r.value.kind = d.kind ∧
      (∀ pre p post, expand cfg.order pt.tags = pre ++ p :: post →
        (∀ q ∈ pre, NoHit src c (acceptField d) f q) →
        Mismatch src c (acceptField d) f p →
        ResolveError.typeMismatch f p ∈ r.errors ∧
        ((∀ q ∈ post, NoHit src c (acceptField d) f q) → r.value = d)) ∧
      ((∀ q ∈ expand cfg.order pt.tags, NoHit src c (acceptField d) f q) → r.value = d) := by
  obtain ⟨_, hfields, _, hall⟩ := ofNode_ok h nd cfg hcfg
  have hlook : (h.fieldsOf nd).lookup f = some dflt := by
    have h1at : h1.fieldAt n f = some dflt := by
      have hc : (Call.field f dflt).run h0 n = .ok (h1, n) := henrol
      have := (Call.run_fieldAt h0 h1 n n (.field f dflt) hc).2 f
      simpa using this
    have hat : h.fieldAt n f = some dflt := by
      rw [(runCalls_fieldAt f n cs h1 h n hrest hkeep).2]
      exact h1at
    simp only [Heap.fieldAt, hn] at hat
    cases hm : nd.Fields with
    | none => simp [hm] at hat
    | some m =>
      simp only [hm] at hat
      simpa [Heap.fieldsOf, hm] using hat
  obtain ⟨d, hd⟩ := scalar_of_allScalar _ f dflt hall hlook
  subst hd
  have hdef : cfg.fieldDefault f = some d := by
    simp [SideloadConfig.fieldDefault, hfields, hlook, GoValue.toScalar]
  have hview : SameView src c c := fun _ => rfl
  have hnone : (∀ q ∈ expand cfg.order pt.tags, NoHit src c (acceptField d) f q) →
      (search src (acceptField d) f (expand cfg.order pt.tags) c []).1.getD d = d := by
    intro hno
    rw [search_none src (acceptField d) f c _ c [] hview hno]
    rfl
  refine ⟨d, _, rfl, resolveField_eq src c cfg pt f d hdef, ?_, ?_, hnone⟩
  · cases hhit : (search src (acceptField d) f (expand cfg.order pt.tags) c []).1 with
    | none => rfl
    | some v =>
      have ha := search_accept src (acceptField d) f v _ _ _ hhit
      simpa [acceptField] using ha
  · intro pre p post hexp hpre hmis
    constructor
    · show ResolveError.typeMismatch f p ∈
        (search src (acceptField d) f (expand cfg.order pt.tags) c []).2.1
      rw [hexp]
      exact search_mismatch src (acceptField d) f c p post hmis pre c [] hview hpre
    · intro hpost
      apply hnone
      intro q hq
      rw [hexp] at hq
      rcases List.mem_append.mp hq with hy | hy
      · exact hpre q hy
      · rcases List.mem_cons.mp hy with hz | hz
        · rw [hz]
          exact noHit_of_mismatch src c (acceptField d) f p hmis
        · exact hpost q hz

/-- Witness of C6: `cpu_threshold` is enrolled with the integer default 80 and
the order is declared afterwards; the host file holds the string `"high"` for
`cpu_threshold` and there is no other file; the point has the tag `host=h1`
only.  The value resolved is 80 and the type error is recorded. -/
theorem resolved_field_has_kind_of_default_witness :
    Field scenarioHeap0 (some 0) "cpu_threshold" (.scalar (.int 80)) = .ok (scenarioHeap1, some 0) ∧
    runCalls scenarioHeap1 (some 0)
      [.order ["host/{host}.yml", "hostgroup/{hostgroup}.yml", "default.yml"]] =
        .ok (scenarioHeap, some 0) ∧
    scenarioHeap.deref (some 0) = some scenarioStruct ∧
    SideloadConfig.ofNode scenarioHeap scenarioStruct = .ok scenarioConfig ∧
    (∀ v, Call.field "cpu_threshold" v ∉
      [Call.order ["host/{host}.yml", "hostgroup/{hostgroup}.yml", "default.yml"]]) ∧
    ∃ r, resolveField mismatchSource emptyCache scenarioConfig hostOnlyPoint "cpu_threshold"
        = some r ∧
      r.value.kind = Kind.integer ∧
      ResolveError.typeMismatch "cpu_threshold" "host/h1.yml" ∈ r.errors ∧
      r.value = Scalar.int 80 := by
  refine ⟨rfl, rfl, rfl, rfl, fun v hv => by simp at hv, ?_⟩
  obtain ⟨d, r, hd, hr, hkind, hmis, _⟩ :=
    resolved_field_has_kind_of_default scenarioHeap0 scenarioHeap1 scenarioHeap (some 0)
      [.order ["host/{host}.yml", "hostgroup/{hostgroup}.yml", "default.yml"]]
      scenarioStruct scenarioConfig "cpu_threshold" (.scalar (.int 80)) mismatchSource emptyCache
      hostOnlyPoint rfl rfl (fun v hv => by simp at hv) rfl rfl
  cases hd
  have hexp : expand scenarioConfig.order hostOnlyPoint.tags =
      [] ++ "host/h1.yml" :: ["default.yml"] := by
    decide
  have hm : Mismatch mismatchSource emptyCache (acceptField (.int 80)) "cpu_threshold"
      "host/h1.yml" := ⟨thresholdDoc (.str "high"), .str "high", rfl, by decide, rfl⟩
  have hpost : ∀ q ∈ ["default.yml"],
      NoHit mismatchSource emptyCache (acceptField (.int 80)) "cpu_threshold" q := by
    intro q hq
    rw [List.mem_singleton.mp hq]
    rintro v ⟨d1, hd1, _⟩
    have hnf : docAt mismatchSource emptyCache "default.yml" = .notFound := by decide
    rw [hnf] at hd1
    cases hd1
  obtain ⟨herr, hval⟩ := hmis [] "host/h1.yml" ["default.yml"] hexp
    (fun q hq => absurd hq (List.not_mem_nil q)) hm
  exact ⟨r, hr, hkind, herr, hval hpost⟩

/-- C7, as stated, fails: in the hierarchy scenario the host group file (70)
and the default file (50) both hold `cpu_threshold` with an acceptable kind
and the host group file comes from the earlier entry of `OrderList`, yet the
value resolved is 90, the one of the host file, which stands before both. -/
theorem earlier_of_two_documents_is_not_always_resolved :
    SideloadConfig.ofNode scenarioHeap scenarioStruct = .ok scenarioConfig ∧
    scenarioStruct.OrderList =
      ["host/{host}.yml"] ++ "hostgroup/{hostgroup}.yml" :: ([] ++ "default.yml" :: []) ∧
    expand scenarioConfig.order scenarioPoint.tags =
      ["host/h1.yml"] ++ "hostgroup/web.yml" :: ([] ++ "default.yml" :: []) ∧
    scenarioConfig.fieldDefault "cpu_threshold" = some (.int 80) ∧
    Hit hierarchySource emptyCache (acceptField (.int 80)) "cpu_threshold"
      "hostgroup/web.yml" (.int 70) ∧
    Hit hierarchySource emptyCache (acceptField (.int 80)) "cpu_threshold"
      "default.yml" (.int 50) ∧
    ∃ r, resolveField hierarchySource emptyCache scenarioConfig scenarioPoint "cpu_threshold"
        = some r ∧ r.value = Scalar.int 90 ∧ r.value ≠ Scalar.int 70 := by
  refine ⟨rfl, rfl, by decide, by decide,
    ⟨thresholdDoc (.int 70), rfl, by decide, rfl⟩,
    ⟨thresholdDoc (.int 50), rfl, by decide, rfl⟩, ?_⟩
  have hr := resolveField_eq hierarchySource emptyCache scenarioConfig scenarioPoint
    "cpu_threshold" (.int 80) (by decide)
  have hexp : expand scenarioConfig.order scenarioPoint.tags =
      [] ++ "host/h1.yml" :: ["hostgroup/web.yml", "default.yml"] := by decide
  have hhit : Hit hierarchySource emptyCache (acceptField (.int 80)) "cpu_threshold"
      "host/h1.yml" (.int 90) := ⟨thresholdDoc (.int 90), rfl, by decide, rfl⟩
  have hval : (search hierarchySource (acceptField (.int 80)) "cpu_threshold"
      (expand scenarioConfig.order scenarioPoint.tags) emptyCache []).1 = some (.int 90) := by
    rw [hexp]
    exact search_first_hit hierarchySource (acceptField (.int 80)) "cpu_threshold" emptyCache
      "host/h1.yml" (.int 90) _ hhit [] emptyCache [] (fun _ => rfl)
      (fun q hq => absurd hq (List.not_mem_nil q))
  refine ⟨_, hr, ?_, ?_⟩
  · show (search hierarchySource (acceptField (.int 80)) "cpu_threshold"
      (expand scenarioConfig.order scenarioPoint.tags) emptyCache []).1.getD (.int 80) = .int 90
    rw [hval]
    rfl
  · show (search hierarchySource (acceptField (.int 80)) "cpu_threshold"
      (expand scenarioConfig.order scenarioPoint.tags) emptyCache []).1.getD (.int 80) ≠ .int 70
    rw [hval]
    decide

/-- C7, amended: precedence.  Let the configuration of a node `nd` build, and
let `p1` stand before `p2` in the list of paths expanded from its `OrderList`
for a point.  Then `p1` and `p2` are the paths of two entries of `OrderList` of which the
one of `p1` stands earlier.  For every configured field (and likewise for
every configured tag) whose key both documents contain with an acceptable
kind, a value is resolved and it is the value of the earliest path that holds
the key acceptably; that path is `p1` or one before it, never `p2`, and the
value is the one of `p1` when no path before `p1` holds the key acceptably. -/
theorem earlier_path_wins {χ : Type} (h : Heap χ) (nd : SideloadNode χ)
    (cfg : SideloadConfig) (src : Source) (c : DocumentCache) (pt : Point)
    (pre mid post : List String) (p1 p2 : String)
    (hcfg : SideloadConfig.ofNode h nd = .ok cfg)
    (hpaths : expand cfg.order pt.tags = pre ++ p1 :: (mid ++ p2 :: post)) :
    (∃ A s1 B s2 C, nd.OrderList = A ++ s1 :: (B ++ s2 :: C) ∧
      pathOfEntry pt.tags s1 = some p1 ∧ pathOfEntry pt.tags s2 = some p2 ∧
      A.filterMap (pathOfEntry pt.tags) = pre ∧ B.filterMap (pathOfEntry pt.tags) = mid) ∧
    (∀ f d v1 v2, cfg.fieldDefault f = some d →
      Hit src c (acceptField d) f p1 v1 → Hit src c (acceptField d) f p2 v2 →
      ∃ r, resolveField src c cfg pt f = some r ∧
        ((∀ q ∈ pre, NoHit src c (acceptField d) f q) → r.value = v1) ∧
        ∃ pre0 p0 post0 v0, pre ++ [p1] = pre0 ++ p0 :: post0 ∧
          (∀ q ∈ pre0, NoHit src c (acceptField d) f q) ∧
          Hit src c (acceptField d) f p0 v0 ∧ r.value = v0) ∧
    (∀ t dflt v1 v2, cfg.tags.lookup t = some dflt →
      Hit src c acceptTag t p1 v1 → Hit src c acceptTag t p2 v2 →
      ∃ r, resolveTag src c cfg pt t = some r ∧
        ((∀ q ∈ pre, NoHit src c acceptTag t q) → Scalar.str r.value = v1) ∧
        ∃ pre0 p0 post0 v0, pre ++ [p1] = pre0 ++ p0 :: post0 ∧
          (∀ q ∈ pre0, NoHit src c acceptTag t q) ∧
          Hit src c acceptTag t p0 v0 ∧ Scalar.str r.value = v0) := by
  obtain ⟨hparse, _, _, _⟩ := ofNode_ok h nd cfg hcfg
  have hview : SameView src c c := fun _ => rfl
  have hsplit : ∀ (pre0 : List String) (p0 : String) (post0 : List String),
      pre ++ [p1] = pre0 ++ p0 :: post0 →
      expand cfg.order pt.tags = pre0 ++ p0 :: (post0 ++ (mid ++ p2 :: post)) := by
    intro pre0 p0 post0 he
    have h1 : pre ++ p1 :: (mid ++ p2 :: post) = (pre ++ [p1]) ++ (mid ++ p2 :: post) := by simp
    rw [hpaths, h1, he]
    simp
  refine ⟨?_, ?_, ?_⟩
  · have hfm := expand_parseOrder pt.tags nd.OrderList cfg.order hparse
    rw [hpaths] at hfm
    obtain ⟨A, s1, R, hl, hs1, hA, hR⟩ :=
      filterMap_eq_append_cons (pathOfEntry pt.tags) nd.OrderList pre p1 _ hfm.symm
    obtain ⟨B, s2, C, hl2, hs2, hB, _⟩ :=
      filterMap_eq_append_cons (pathOfEntry pt.tags) R mid p2 post hR
    exact ⟨A, s1, B, s2, C, by rw [hl, hl2], hs1, hs2, hA, hB⟩
  · intro f d v1 v2 hdef hit1 _
    refine ⟨_, resolveField_eq src c cfg pt f d hdef, ?_, ?_⟩
    · intro hno
      show (search src (acceptField d) f (expand cfg.order pt.tags) c []).1.getD d = v1
      rw [hpaths, search_first_hit src (acceptField d) f c p1 v1 _ hit1 pre c [] hview hno]
      rfl
    · obtain ⟨pre0, p0, post0, v0, he, hno0, hit0⟩ :=
        exists_first_hit src c (acceptField d) f p1 v1 hit1 pre
      refine ⟨pre0, p0, post0, v0, he, hno0, hit0, ?_⟩
      show (search src (acceptField d) f (expand cfg.order pt.tags) c []).1.getD d = v0
      rw [hsplit pre0 p0 post0 he,
        search_first_hit src (acceptField d) f c p0 v0 _ hit0 pre0 c [] hview hno0]
      rfl
  · intro t dflt v1 v2 hdef hit1 _
    obtain ⟨pre0, p0, post0, v0, he, hno0, hit0⟩ :=
      exists_first_hit src c acceptTag t p1 v1 hit1 pre
    have hv0 : (search src acceptTag t (expand cfg.order pt.tags) c []).1 = some v0 := by
      rw [hsplit pre0 p0 post0 he]
      exact search_first_hit src acceptTag t c p0 v0 _ hit0 pre0 c [] hview hno0
    obtain ⟨r, hr, hval⟩ := resolveTag_of_hit src c cfg pt t dflt v0 hdef hv0
    refine ⟨r, hr, ?_, pre0, p0, post0, v0, he, hno0, hit0, hval⟩
    intro hno
    have hv1 : (search src acceptTag t (expand cfg.order pt.tags) c []).1 = some v1 := by
      rw [hpaths]
      exact search_first_hit src acceptTag t c p1 v1 _ hit1 pre c [] hview hno
    rw [hv0] at hv1
    cases hv1
    exact hval

/-- Witness of C7: with the host file (90), the host group file (70) and
the default file (50) all present and a point tagged `host=h1`, `hostgroup=web`,
the value resolved for `cpu_threshold` is the one of the host file. -/
theorem earlier_path_wins_witness :
    SideloadConfig.ofNode scenarioHeap scenarioStruct = .ok scenarioConfig ∧
    expand scenarioConfig.order scenarioPoint.tags =
      [] ++ "host/h1.yml" :: ([] ++ "hostgroup/web.yml" :: ["default.yml"]) ∧
    ∃ r, resolveField hierarchySource emptyCache scenarioConfig scenarioPoint "cpu_threshold"
        = some r ∧ r.value = Scalar.int 90 := by
  have hexp : expand scenarioConfig.order scenarioPoint.tags =
      [] ++ "host/h1.yml" :: ([] ++ "hostgroup/web.yml" :: ["default.yml"]) := by decide
  refine ⟨rfl, hexp, ?_⟩
  have hit1 : Hit hierarchySource emptyCache (acceptField (.int 80)) "cpu_threshold"
      "host/h1.yml" (.int 90) := ⟨thresholdDoc (.int 90), rfl, by decide, rfl⟩
  have hit2 : Hit hierarchySource emptyCache (acceptField (.int 80)) "cpu_threshold"
      "hostgroup/web.yml" (.int 70) := ⟨thresholdDoc (.int 70), rfl, by decide, rfl⟩
  obtain ⟨r, hr, hval, _⟩ :=
    (earlier_path_wins scenarioHeap scenarioStruct scenarioConfig hierarchySource
      emptyCache scenarioPoint [] [] ["default.yml"] "host/h1.yml" "hostgroup/web.yml"
      rfl hexp).2.1 "cpu_threshold" (.int 80) (.int 90) (.int 70) (by decide) hit1 hit2
  exact ⟨r, hr, hval (fun q hq => absurd hq (List.not_mem_nil q))⟩

end Sideload
